import Mathlib

/-!
Verification of the in-process memory search and result-store engine.

This file gives a shallow embedding, in Lean 4, of the core data model and
operations of the engine (query IR, lexer number parsing, query parser,
value matching, page-aware scanners, group matchers, refine DFS, the exact
result store, the B+ tree map, and the async controller entry points), and
proves or refutes the specified properties about them.

Conventions used throughout:
- Rust machine integers are modeled as Nat or Int, with explicit wrapping
  (mod 2 to a power) exactly where the source can overflow or truncate.
- Bytes are modeled as Nat; well-formedness hypotheses (all entries < 256)
  appear where a property depends on them.
- Fallible Rust code (Result / panics) is modeled with Option or Except;
  an index/slice panic is modeled as Option.none.
- Floating-point comparison semantics (f32/f64 decoding and epsilon
  comparison) is kept abstract as a FloatSem parameter: no claim in this
  development depends on it.
-/

namespace MX

/-! ## Query IR: value types (search/types.rs) -/

/-- Tag of primitive numeric value type (source: enum ValueType). -/
inductive ValueType where
  | Byte | Word | Dword | Qword | Float | Double | Auto | Xor
deriving DecidableEq, Repr

/-- Byte width of each value type (source: ValueType::size). -/
def ValueType.size : ValueType → Nat
  | .Byte => 1
  | .Word => 2
  | .Dword => 4
  | .Qword => 8
  | .Float => 4
  | .Double => 8
  | .Auto => 4
  | .Xor => 4

/-- Whether the value type is a floating type (source: ValueType.is_float_type). -/
def ValueType.isFloatType : ValueType → Bool
  | .Float => true
  | .Double => true
  | _ => false

theorem ValueType.size_pos (vt : ValueType) : 0 < vt.size := by
  cases vt <;> simp [ValueType.size]

/-! ## Little-endian integer decoding

The source decodes search-buffer bytes with iN::from_le_bytes for
N in {8, 16, 32, 64, 128} and sign-extends into i128. We model each
width the way the source spells it, and separately give the generic
sign-extension formula used by the specification text. -/

/-- Little-endian value of a byte list (as an unsigned natural number). -/
def leNat : List Nat → Nat
  | [] => 0
  | b :: bs => b + 256 * leNat bs

/-- Decoding of one byte as i8 then widened (source: other[0] as i8 in matched). -/
def i8OfByte (b : Nat) : Int :=
  if b < 128 then (b : Int) else (b : Int) - 256

/-- Decoding of a 2-byte little-endian slice as i16 (source: i16::from_le_bytes). -/
def i16OfLe (bs : List Nat) : Int :=
  let u := leNat (bs.take 2)
  if u < 2 ^ 15 then (u : Int) else (u : Int) - 2 ^ 16

/-- Decoding of a 4-byte little-endian slice as i32 (source: i32::from_le_bytes). -/
def i32OfLe (bs : List Nat) : Int :=
  let u := leNat (bs.take 4)
  if u < 2 ^ 31 then (u : Int) else (u : Int) - 2 ^ 32

/-- Decoding of an 8-byte little-endian slice as i64 (source: i64::from_le_bytes). -/
def i64OfLe (bs : List Nat) : Int :=
  let u := leNat (bs.take 8)
  if u < 2 ^ 63 then (u : Int) else (u : Int) - 2 ^ 64

/-- Decoding of a 16-byte little-endian slice as i128 (source: i128::from_le_bytes). -/
def i128OfLe (bs : List Nat) : Int :=
  let u := leNat (bs.take 16)
  if u < 2 ^ 127 then (u : Int) else (u : Int) - 2 ^ 128

/-- Generic sign-extended little-endian integer of the first w bytes:
the specification-side description of the decoded comparison value. -/
def signExtLE (w : Nat) (bs : List Nat) : Int :=
  let u := leNat (bs.take w)
  if u < 2 ^ (8 * w - 1) then (u : Int) else (u : Int) - 2 ^ (8 * w)

/-- Little-endian byte list (w bytes) of a natural number. -/
def natToLeBytes : Nat → Nat → List Nat
  | 0, _ => []
  | w + 1, n => n % 256 :: natToLeBytes w (n / 256)

/-- Byte representation of an i128 value (source: i128::to_le_bytes). -/
def i128ToLeBytes (v : Int) : List Nat :=
  natToLeBytes 16 (v % 2 ^ 128).toNat

/-! ## Query IR: search values (search/types.rs) -/

/-- Abstract floating-point comparison semantics. The source compares
floats by decoding the buffer as f32/f64 and testing the difference
against f64::EPSILON; IEEE float arithmetic is not modeled here, so the
two comparisons are abstract boolean functions (target bits, byte width,
buffer bytes). -/
structure FloatSem where
  fixedMatch : Nat → Nat → List Nat → Bool
  rangeMatch : Nat → Nat → Nat → Bool → List Nat → Bool

/-- A trivial instantiation of the abstract float semantics, used to
evaluate the model at concrete non-floating inputs. -/
def trivFloatSem : FloatSem := ⟨fun _ _ _ => false, fun _ _ _ _ _ => false⟩

/-- Search value (source: enum SearchValue). FixedFloat stores an f64,
modeled by its 64-bit pattern; RangeInt bounds are i128 (source field
names start/end; end is a Lean keyword, so the fields are lo/hi here). -/
inductive SearchValue where
  | FixedInt (value : List Nat) (valueType : ValueType)
  | FixedFloat (bits : Nat) (valueType : ValueType)
  | RangeInt (lo hi : Int) (valueType : ValueType) (exclude : Bool)
  | RangeFloat (loBits hiBits : Nat) (valueType : ValueType) (exclude : Bool)
deriving DecidableEq, Repr

/-- Constructor for fixed integer values (source: SearchValue::fixed). -/
def SearchValue.fixed (value : Int) (vt : ValueType) : SearchValue :=
  .FixedInt (i128ToLeBytes value) vt

/-- Constructor for range integer values (source: SearchValue::range). -/
def SearchValue.range (lo hi : Int) (vt : ValueType) (exclude : Bool) : SearchValue :=
  .RangeInt lo hi vt exclude

/-- Value type of a search value (source: SearchValue::value_type). -/
def SearchValue.valueType : SearchValue → ValueType
  | .FixedInt _ vt => vt
  | .FixedFloat _ vt => vt
  | .RangeInt _ _ vt _ => vt
  | .RangeFloat _ _ vt _ => vt

/-- Whether the value is fixed (source: SearchValue::is_fixed). -/
def SearchValue.isFixed : SearchValue → Bool
  | .FixedInt _ _ => true
  | .FixedFloat _ _ => true
  | _ => false

/-- Width dispatch of the RangeInt branch of SearchValue::matched: decode
the buffer as a signed integer of the given byte width (source: the match
on size with arms 1, 2, 4, 8, 16 inside matched). -/
def rangeIntDecode (size : Nat) (other : List Nat) : Option Int :=
  if size = 1 then some (i8OfByte (other.headD 0))
  else if size = 2 then some (i16OfLe other)
  else if size = 4 then some (i32OfLe other)
  else if size = 8 then some (i64OfLe other)
  else if size = 16 then some (i128OfLe other)
  else none

/-- Value matching against buffer bytes (source: SearchValue::matched).
Returns none where the source panics on a short slice or returns Err on
an unexpected width. -/
def SearchValue.matched (fs : FloatSem) : SearchValue → List Nat → Option Bool
  | .FixedInt value vt, other =>
      let size := vt.size
      if other.length < size then none
      else some (decide (value.take size = other.take size))
  | .FixedFloat bits vt, other =>
      let size := vt.size
      if size = 4 ∨ size = 8 then
        if other.length < size then none
        else some (fs.fixedMatch bits size other)
      else none
  | .RangeInt lo hi vt exclude, other =>
      let size := vt.size
      if other.length < size then none
      else
        match rangeIntDecode size other with
        | none => none
        | some v =>
            if exclude then some (decide (v < lo ∨ v > hi))
            else some (decide (lo ≤ v ∧ v ≤ hi))
  | .RangeFloat loBits hiBits vt exclude, other =>
      let size := vt.size
      if size = 4 ∨ size = 8 then
        if other.length < size then none
        else some (fs.rangeMatch loBits hiBits size exclude other)
      else none

/-- Search mode (source: enum SearchMode). -/
inductive SearchMode where
  | Unordered | Ordered
deriving DecidableEq, Repr

/-- Search query (source: struct SearchQuery). -/
structure SearchQuery where
  values : List SearchValue
  mode : SearchMode
  range : Nat
deriving DecidableEq, Repr

/-- Query validation (source: SearchQuery::validate). -/
def SearchQuery.validate (q : SearchQuery) : Except String Unit :=
  if q.values.isEmpty then .error "No values specified"
  else if q.values.length > 64 then .error "Maximum 64 values allowed"
  else if q.values.length ≥ 2 ∧ q.range < 2 then
    .error "Range must be at least 2 for group search"
  else .ok ()

/-! ## C6: RangeInt matched characterization -/

theorem leNat_lt (bs : List Nat) (h : ∀ b ∈ bs, b < 256) :
    leNat bs < 256 ^ bs.length := by
  induction bs with
  | nil => simp [leNat]
  | cons b rest ih =>
      have hb : b < 256 := h b (by simp)
      have hr : leNat rest < 256 ^ rest.length := ih (fun x hx => h x (by simp [hx]))
      simp only [leNat, List.length_cons, pow_succ]
      calc b + 256 * leNat rest < 256 + 256 * leNat rest := by omega
        _ = 256 * (leNat rest + 1) := by ring
        _ ≤ 256 * 256 ^ rest.length := by
              have : leNat rest + 1 ≤ 256 ^ rest.length := hr
              exact Nat.mul_le_mul_left 256 this
        _ = 256 ^ rest.length * 256 := by ring

theorem i8OfByte_eq_signExtLE (b : Nat) (bs : List Nat) :
    i8OfByte b = signExtLE 1 (b :: bs) := by
  simp [i8OfByte, signExtLE, leNat, List.take]

theorem i16OfLe_eq_signExtLE (bs : List Nat) :
    i16OfLe bs = signExtLE 2 bs := by
  simp [i16OfLe, signExtLE]

theorem i32OfLe_eq_signExtLE (bs : List Nat) :
    i32OfLe bs = signExtLE 4 bs := by
  simp [i32OfLe, signExtLE]

theorem i64OfLe_eq_signExtLE (bs : List Nat) :
    i64OfLe bs = signExtLE 8 bs := by
  simp [i64OfLe, signExtLE]

theorem rangeIntDecode_eq_signExtLE (vt : ValueType) (bytes : List Nat)
    (hlen : vt.size ≤ bytes.length) :
    rangeIntDecode vt.size bytes = some (signExtLE vt.size bytes) := by
  obtain ⟨b, rest, hbs⟩ : ∃ b rest, bytes = b :: rest := by
    cases bytes with
    | nil => have := vt.size_pos; simp at hlen; omega
    | cons b rest => exact ⟨b, rest, rfl⟩
  subst hbs
  cases vt <;>
    simp [rangeIntDecode, ValueType.size, ← i8OfByte_eq_signExtLE,
      ← i16OfLe_eq_signExtLE, ← i32OfLe_eq_signExtLE, ← i64OfLe_eq_signExtLE]

/-- C6: for a RangeInt value with lo ≤ hi and a buffer of at least
type.size() bytes, matched returns true exactly when the sign-extended
little-endian integer v of the first type.size() bytes satisfies
lo ≤ v ≤ hi (exclude = false), respectively v < lo or v > hi
(exclude = true). -/
theorem rangeInt_matched_iff (fs : FloatSem) (lo hi : Int) (vt : ValueType)
    (bytes : List Nat) (hlo : lo ≤ hi) (hlen : vt.size ≤ bytes.length) :
    (((SearchValue.RangeInt lo hi vt false).matched fs bytes = some true) ↔
        (lo ≤ signExtLE vt.size bytes ∧ signExtLE vt.size bytes ≤ hi)) ∧
    (((SearchValue.RangeInt lo hi vt true).matched fs bytes = some true) ↔
        (signExtLE vt.size bytes < lo ∨ hi < signExtLE vt.size bytes)) := by
  have hnl : ¬ bytes.length < vt.size := Nat.not_lt.mpr hlen
  constructor <;>
    simp [SearchValue.matched, hnl, rangeIntDecode_eq_signExtLE vt bytes hlen]

/-- Witness for C6 at a concrete input: the Dword range [100, 200]
matched against the little-endian bytes of 150. -/
theorem rangeInt_matched_iff_witness :
    ((100 : Int) ≤ 200 ∧ (ValueType.Dword).size ≤ [150, 0, 0, 0].length) ∧
      ((SearchValue.RangeInt 100 200 .Dword false).matched trivFloatSem [150, 0, 0, 0]
        = some true) := by
  refine ⟨⟨by norm_num, by simp [ValueType.size]⟩, ?_⟩
  have h := (rangeInt_matched_iff trivFloatSem 100 200 .Dword [150, 0, 0, 0]
    (by norm_num) (by simp [ValueType.size])).1
  rw [h]
  decide

/-! ## Lexer number parsing (search/lexer.rs) -/

/-- Numeric value of a decimal digit character, if any. -/
def decDigitVal (c : Char) : Option Nat :=
  if '0' ≤ c ∧ c ≤ '9' then some (c.toNat - '0'.toNat) else none

/-- Numeric value of a hexadecimal digit character, if any. -/
def hexDigitVal (c : Char) : Option Nat :=
  if '0' ≤ c ∧ c ≤ '9' then some (c.toNat - '0'.toNat)
  else if 'a' ≤ c ∧ c ≤ 'f' then some (c.toNat - 'a'.toNat + 10)
  else if 'A' ≤ c ∧ c ≤ 'F' then some (c.toNat - 'A'.toNat + 10)
  else none

/-- Unsigned digit-string value in the given radix: none when the digit
list is empty or contains an invalid character. -/
def digitsVal (digitVal : Char → Option Nat) (radix : Nat) : List Char → Option Nat
  | [] => none
  | [c] => digitVal c
  | c :: rest => do
      let d ← digitVal c
      let r ← digitsVal digitVal radix rest
      pure (d * radix ^ rest.length + r)

/-- Signed radix parse with i128 overflow semantics, modeling Rust
i128::from_str_radix and str::parse for i128: optional single sign,
at least one digit, error on overflow. -/
def parseI128 (digitVal : Char → Option Nat) (radix : Nat) (cs : List Char) :
    Option Int :=
  let signed : Bool × List Char :=
    match cs with
    | '-' :: rest => (true, rest)
    | '+' :: rest => (false, rest)
    | _ => (false, cs)
  match digitsVal digitVal radix signed.2 with
  | none => none
  | some mag =>
      if signed.1 then
        if (mag : Int) ≤ 2 ^ 127 then some (-(mag : Int)) else none
      else
        if (mag : Int) ≤ 2 ^ 127 - 1 then some (mag : Int) else none

/-- Number-token parsing (source: fn parse_number in lexer.rs): strip
grouping commas, strip a trailing h or H, then parse as i128 in hex
or decimal. -/
def parse_number (s : String) (isHex : Bool) : Except String Int :=
  let cleaned := s.data.filter (fun c => c ≠ ',')
  let cleaned :=
    if cleaned.getLast? = some 'h' ∨ cleaned.getLast? = some 'H' then
      cleaned.dropLast
    else cleaned
  if isHex then
    match parseI128 hexDigitVal 16 cleaned with
    | some v => .ok v
    | none => .error "Invalid hex number"
  else
    match parseI128 decDigitVal 10 cleaned with
    | some v => .ok v
    | none => .error "Invalid decimal number"

/-! ## Query parser (search/parser.rs)

The parser is modeled at the token level: each parsing function consumes
a prefix of a token list and returns the value parsed together with the
remaining tokens, mirroring the pos-cursor of the source. Floating-point
literal parsing (f64 text decoding and comparison, fn parse_float) is
kept abstract as a FloatParseSem parameter; no claim depends on it. -/

/-- Lexer tokens (source: enum Token in lexer.rs). -/
inductive Token where
  | Number (s : String) (isHex : Bool)
  | Type (vt : ValueType)
  | Semicolon | Colon | DoubleColon | Tilde | DoubleTilde
deriving DecidableEq, Repr

/-- Abstract floating-point literal semantics for the parser: parse gives
the f64 bit pattern of a literal (none on failure), gt compares two
parsed values (source: fn parse_float and the start > end test). -/
structure FloatParseSem where
  parse : String → Option Nat
  gt : Nat → Nat → Bool

/-- A trivial instantiation of FloatParseSem for concrete evaluation of
queries without floating literals. -/
def trivFloatParseSem : FloatParseSem := ⟨fun _ => none, fun _ _ => false⟩

/-- Floating literal parsing (source: fn parse_float in lexer.rs): hex
notation is rejected; otherwise the abstract f64 parse decides. -/
def parse_float (fp : FloatParseSem) (s : String) (isHex : Bool) :
    Except String Nat :=
  if isHex then .error "Hex notation not supported for floating point"
  else
    match fp.parse s with
    | some bits => .ok bits
    | none => .error "Invalid float number"

/-- Fixed-value construction (source: Parser::create_fixed_value).
Integer literals are range-checked against u64::MAX above and
i64::MIN below. -/
def create_fixed_value (fp : FloatParseSem) (numTok : String × Bool)
    (vt : ValueType) : Except String SearchValue :=
  let (numStr, isHex) := numTok
  if vt.isFloatType then do
    let bits ← parse_float fp numStr isHex
    pure (SearchValue.FixedFloat bits vt)
  else do
    let value ← parse_number numStr isHex
    if value > 2 ^ 64 - 1 then
      .error "Value exceeds maximum for fixed search"
    else if value < -(2 ^ 63) then
      .error "Value is below minimum for fixed search"
    else
      pure (SearchValue.fixed value vt)

/-- Range-value construction (source: Parser::create_range_value).
Integer endpoints are each checked against the i64 range, and
lo > hi is rejected. -/
def create_range_value (fp : FloatParseSem) (startTok endTok : String × Bool)
    (vt : ValueType) (exclude : Bool) : Except String SearchValue :=
  let (startStr, startHex) := startTok
  let (endStr, endHex) := endTok
  if vt.isFloatType then do
    let sBits ← parse_float fp startStr startHex
    let eBits ← parse_float fp endStr endHex
    if fp.gt sBits eBits then .error "Range start must be LE end"
    else pure (SearchValue.RangeFloat sBits eBits vt exclude)
  else do
    let s ← parse_number startStr startHex
    let e ← parse_number endStr endHex
    if s > 2 ^ 63 - 1 ∨ e > 2 ^ 63 - 1 then
      .error "Range values exceed maximum for integer range search"
    else if s < -(2 ^ 63) ∨ e < -(2 ^ 63) then
      .error "Range values are below minimum for integer range search"
    else if s > e then .error "Range start must be LE end"
    else pure (SearchValue.range s e vt exclude)

/-- Range tail after the range operator, default-typed variant
(source: Parser::parse_range). -/
def parse_range (fp : FloatParseSem) (defaultType : ValueType)
    (startTok : String × Bool) (exclude : Bool) (ts : List Token) :
    Except String (SearchValue × List Token) :=
  match ts with
  | .Number s hex :: rest =>
      let (vt, rest) :=
        match rest with
        | .Type vt :: rest2 => (vt, rest2)
        | _ => (defaultType, rest)
      do pure (← create_range_value fp startTok (s, hex) vt exclude, rest)
  | _ :: _ => .error "Expected number after range operator"
  | [] => .error "Expected number after range operator, got EOF"

/-- Range tail after the range operator when the start literal already
carried a type suffix (source: Parser::parse_range_with_type): a second
suffix of a different type is rejected. -/
def parse_range_with_type (fp : FloatParseSem) (startTok : String × Bool)
    (vt : ValueType) (exclude : Bool) (ts : List Token) :
    Except String (SearchValue × List Token) :=
  match ts with
  | .Number s hex :: rest =>
      match rest with
      | .Type endType :: rest2 =>
          if endType ≠ vt then .error "Range type mismatch"
          else do pure (← create_range_value fp startTok (s, hex) vt exclude, rest2)
      | _ => do pure (← create_range_value fp startTok (s, hex) vt exclude, rest)
  | _ :: _ => .error "Expected number after range operator"
  | [] => .error "Expected number after range operator, got EOF"

/-- One query value (source: Parser::parse_value). -/
def parse_value (fp : FloatParseSem) (defaultType : ValueType) (ts : List Token) :
    Except String (SearchValue × List Token) :=
  match ts with
  | .Number s hex :: rest =>
      match rest with
      | .Tilde :: rest2 => parse_range fp defaultType (s, hex) false rest2
      | .DoubleTilde :: rest2 => parse_range fp defaultType (s, hex) true rest2
      | .Type vt :: rest2 =>
          (match rest2 with
          | .Tilde :: rest3 => parse_range_with_type fp (s, hex) vt false rest3
          | .DoubleTilde :: rest3 => parse_range_with_type fp (s, hex) vt true rest3
          | _ => do pure (← create_fixed_value fp (s, hex) vt, rest2))
      | _ => do pure (← create_fixed_value fp (s, hex) defaultType, rest)
  | _ :: _ => .error "Expected number"
  | [] => .error "Expected number, got EOF"

/-- Semicolon-separated list of query values (source: Parser::parse_values).
The while loop of the source is modeled with fuel bounded by the token
count; each iteration consumes at least the semicolon token, so the fuel
branch is unreachable when started with the list length. -/
def parse_values_loop (fp : FloatParseSem) (defaultType : ValueType) :
    Nat → List SearchValue → List Token →
    Except String (List SearchValue × List Token)
  | 0, _, _ => .error "out of fuel"
  | fuel + 1, acc, ts =>
      match ts with
      | .Semicolon :: rest => do
          let (v, rest2) ← parse_value fp defaultType rest
          parse_values_loop fp defaultType fuel (acc ++ [v]) rest2
      | _ => .ok (acc, ts)

/-- Top of parse_values: first value, then the semicolon loop. -/
def parse_values (fp : FloatParseSem) (defaultType : ValueType) (ts : List Token) :
    Except String (List SearchValue × List Token) := do
  let (v, rest) ← parse_value fp defaultType ts
  parse_values_loop fp defaultType (rest.length + 1) [v] rest

/-- Size token of the range specifier (source: Parser::parse_range_size):
parse the number, bound-check it against [2, 65536], and truncate to u16.
EOF after the colon yields the default 512. -/
def parse_range_size (ts : List Token) : Except String (Nat × List Token) :=
  match ts with
  | .Number s hex :: rest => do
      let size ← parse_number s hex
      if size < 2 ∨ size > 65536 then
        .error "Range size must be between 2 and 65536"
      else
        pure ((size % 2 ^ 16).toNat, rest)
  | _ :: _ => .error "Expected number for range size"
  | [] => .ok (512, [])

/-- Mode and size specifier (source: Parser::parse_range_specifier):
single colon is Unordered, double colon is Ordered, absence defaults to
Unordered with size 512. -/
def parse_range_specifier (ts : List Token) :
    Except String ((SearchMode × Nat) × List Token) :=
  match ts with
  | .Colon :: rest => do
      let (range, rest2) ← parse_range_size rest
      pure ((SearchMode.Unordered, range), rest2)
  | .DoubleColon :: rest => do
      let (range, rest2) ← parse_range_size rest
      pure ((SearchMode.Ordered, range), rest2)
  | [] => .ok ((SearchMode.Unordered, 512), [])
  | _ :: _ => .error "Expected colon or end of input"

/-- Whole-query parse over a token list (source: Parser::parse and
fn parse_search_query): values, then specifier, then no trailing tokens,
then validation. -/
def parse_search_query (fp : FloatParseSem) (ts : List Token)
    (defaultType : ValueType) : Except String SearchQuery := do
  let (values, rest) ← parse_values fp defaultType ts
  let ((mode, range), rest2) ← parse_range_specifier rest
  if rest2.isEmpty then
    let q : SearchQuery := ⟨values, mode, range⟩
    match q.validate with
    | .ok _ => pure q
    | .error e => .error e
  else .error "Unexpected tokens after query"

/-! ## C4: range-size token semantics -/

set_option maxRecDepth 4000 in
/-- C4 counterexample: the claim states that a successfully parsed
trailing size n always yields range = n. The token form of the query
text 100D:65536 has a trailing size token parsing to 65536 and parses
successfully, yet the resulting query stores range = 0 because the size
is truncated with an as-u16 cast. -/
theorem parse_range_size_65536_counterexample :
    parse_number "65536" false = .ok 65536 ∧
    parse_search_query trivFloatParseSem
      [.Number "100" false, .Type .Dword, .Colon, .Number "65536" false] .Dword
      = .ok ⟨[SearchValue.fixed 100 .Dword], .Unordered, 0⟩ ∧
    (0 : Nat) ≠ 65536 := by
  refine ⟨by rfl, by rfl, by norm_num⟩

/-- C4 amended: a trailing size token with numeric value n is accepted
exactly when 2 ≤ n ≤ 65536, and the stored range is n truncated to u16
(n mod 2 to the 16th); in particular n = 65536 stores range 0. -/
theorem parse_range_size_spec (s : String) (hex : Bool) (rest : List Token)
    (n : Int) (h : parse_number s hex = .ok n) :
    (2 ≤ n ∧ n ≤ 65536 →
      parse_range_size (.Number s hex :: rest) = .ok ((n % 2 ^ 16).toNat, rest)) ∧
    (n < 2 ∨ 65536 < n →
      parse_range_size (.Number s hex :: rest)
        = .error "Range size must be between 2 and 65536") := by
  constructor
  · intro hb
    simp only [parse_range_size, h, Except.bind, bind]
    rw [if_neg (by omega)]
    rfl
  · intro hb
    simp only [parse_range_size, h, Except.bind, bind]
    rw [if_pos (by omega)]

set_option maxRecDepth 4000 in
/-- Witness for C4 amended at the concrete size token 512. -/
theorem parse_range_size_spec_witness :
    parse_range_size [Token.Number "512" false] = .ok (512, []) := by
  have h := (parse_range_size_spec "512" false [] 512 (by rfl)).1 (by norm_num)
  simpa using h

/-! ## C5: fixed integer literal bounds -/

set_option maxRecDepth 4000 in
/-- C5 counterexample: the claim states that a fixed literal greater
than i64::MAX is rejected. The literal 9223372036854775808 (that is,
i64::MAX + 1) is accepted by the parser as a fixed Dword value. -/
theorem create_fixed_value_claim_counterexample :
    (2 ^ 63 - 1 : Int) < 9223372036854775808 ∧
    parse_search_query trivFloatParseSem
      [.Number "9223372036854775808" false] .Dword
      = .ok ⟨[SearchValue.fixed 9223372036854775808 .Dword], .Unordered, 512⟩ := by
  exact ⟨by norm_num, by rfl⟩

/-- C5 amended: a fixed (non-range) integer literal with numeric value n
is accepted exactly when i64::MIN ≤ n ≤ u64::MAX; only values above
u64::MAX or below i64::MIN are rejected. -/
theorem create_fixed_value_bounds (fp : FloatParseSem) (s : String) (hex : Bool)
    (vt : ValueType) (n : Int) (hfl : vt.isFloatType = false)
    (h : parse_number s hex = .ok n) :
    create_fixed_value fp (s, hex) vt = .ok (SearchValue.fixed n vt) ↔
      (-(2 ^ 63) ≤ n ∧ n ≤ 2 ^ 64 - 1) := by
  simp only [create_fixed_value, hfl, Bool.false_eq_true, if_false, h,
    Except.bind, bind, pure]
  constructor
  · intro hok
    by_contra hb
    rcases Classical.em (n > 2 ^ 64 - 1) with hgt | hle
    · rw [if_pos hgt] at hok; cases hok
    · rw [if_neg hle, if_pos (by omega)] at hok; cases hok
  · intro hb
    rw [if_neg (by omega), if_neg (by omega)]
    rfl

set_option maxRecDepth 4000 in
/-- Witness for C5 amended at the concrete literal 5. -/
theorem create_fixed_value_bounds_witness :
    create_fixed_value trivFloatParseSem ("5", false) .Dword
      = .ok (SearchValue.fixed 5 .Dword) := by
  exact (create_fixed_value_bounds trivFloatParseSem "5" false .Dword 5
    (by rfl) (by rfl)).2 (by norm_num)

/-! ## Exact result store (search/result_manager/exact.rs)

The store is a RAM vector plus a growable memory-mapped overflow file.
The mmap is modeled as the list of its first disk_count meaningful
items; the lazily created file and its spare tail bytes carry no
observable state beyond that list. Methods taking Rust &mut self are
modeled as functions returning the new store paired with the Result;
an early error return leaves the store unchanged. -/

/-- Stored item (source: struct ExactSearchResultItem, repr packed). -/
structure ExactSearchResultItem where
  address : Nat
  typ : ValueType
deriving DecidableEq, Repr

/-- Result-store state (source: struct ExactSearchResultManager).
disk_count is the length of the disk list; cache paths and the raw file
handle are not observable through the modeled operations. -/
structure ExactStore where
  memoryBuffer : List ExactSearchResultItem
  memoryBufferCapacity : Nat
  disk : List ExactSearchResultItem
  totalCount : Nat
deriving DecidableEq, Repr

/-- Add one result (source: ExactSearchResultManager::add_result): RAM
until capacity, then overflow to disk; total_count always increments. -/
def ExactStore.add_result (st : ExactStore) (item : ExactSearchResultItem) :
    ExactStore :=
  if st.memoryBufferCapacity = 0 then
    { st with disk := st.disk ++ [item], totalCount := st.totalCount + 1 }
  else if st.memoryBuffer.length < st.memoryBufferCapacity then
    { st with memoryBuffer := st.memoryBuffer ++ [item],
              totalCount := st.totalCount + 1 }
  else
    { st with disk := st.disk ++ [item], totalCount := st.totalCount + 1 }

/-- Disk-side single removal (source: remove_disk_item): shift the tail
down by one item; out-of-range disk index is an error. -/
def ExactStore.remove_disk_item (st : ExactStore) (diskIndex : Nat) :
    ExactStore × Except String Unit :=
  if st.disk.length ≤ diskIndex then (st, .error "Disk index out of bounds")
  else ({ st with disk := st.disk.eraseIdx diskIndex }, .ok ())

/-- Single removal (source: ExactSearchResultManager::remove_result):
index out of bounds is an error and changes nothing; a RAM index removes
from the RAM vector, a disk index shifts the file contents; total_count
decrements on success. -/
def ExactStore.remove_result (st : ExactStore) (index : Nat) :
    ExactStore × Except String Unit :=
  if st.totalCount ≤ index then (st, .error "Index out of bounds")
  else if index < st.memoryBuffer.length then
    ({ st with memoryBuffer := st.memoryBuffer.eraseIdx index,
               totalCount := st.totalCount - 1 }, .ok ())
  else
    let diskIndex := index - st.memoryBuffer.length
    match st.remove_disk_item diskIndex with
    | (st2, .ok _) => ({ st2 with totalCount := st2.totalCount - 1 }, .ok ())
    | (st2, .error e) => (st2, .error e)

/-- Two-pointer compaction loop of remove_memory_batch: walk positions
from the first deleted index, skipping positions named by the sorted
delete list (source: the read_pos/write_pos loop in remove_memory_batch;
the in-place writes at write_pos followed by truncate realize exactly
the kept sublist). -/
def compactLoop (pos : Nat) (dels : List Nat) :
    List ExactSearchResultItem → List ExactSearchResultItem
  | [] => []
  | x :: rest =>
      match dels with
      | d :: ds =>
          if pos = d then compactLoop (pos + 1) ds rest
          else x :: compactLoop (pos + 1) (d :: ds) rest
      | [] => x :: compactLoop (pos + 1) [] rest

/-- Batch removal of RAM items (source: remove_memory_batch). -/
def remove_memory_batch (buf : List ExactSearchResultItem)
    (sortedIndices : List Nat) : List ExactSearchResultItem :=
  if sortedIndices.isEmpty ∨ buf.isEmpty then buf
  else
    let firstDel := sortedIndices.headD 0
    if buf.length ≤ firstDel then buf
    else buf.take firstDel ++ compactLoop firstDel sortedIndices (buf.drop firstDel)

/-- Two-pointer compaction loop of remove_disk_batch; a delete index at
or beyond disk_count empties the remaining delete list (source: the
read_pos loop in remove_disk_batch). -/
def compactDiskLoop (pos diskCount : Nat) (dels : List Nat) :
    List ExactSearchResultItem → List ExactSearchResultItem
  | [] => []
  | x :: rest =>
      match dels with
      | d :: ds =>
          if diskCount ≤ d then x :: compactDiskLoop (pos + 1) diskCount [] rest
          else if pos = d then compactDiskLoop (pos + 1) diskCount ds rest
          else x :: compactDiskLoop (pos + 1) diskCount (d :: ds) rest
      | [] => x :: compactDiskLoop (pos + 1) diskCount [] rest

/-- Batch removal of disk items (source: remove_disk_batch); absent mmap
or empty input is a silent no-op, as in the source. -/
def ExactStore.remove_disk_batch (st : ExactStore) (sortedDiskIndices : List Nat) :
    ExactStore :=
  if sortedDiskIndices.isEmpty ∨ st.disk.length = 0 then st
  else
    let firstDel := sortedDiskIndices.headD 0
    if st.disk.length ≤ firstDel then st
    else
      { st with disk := (st.disk.take firstDel ++
          compactDiskLoop firstDel st.disk.length sortedDiskIndices
            (st.disk.drop firstDel)) }

/-- Consecutive-duplicate removal (source: Vec::dedup called on the
sorted index list in remove_results_batch). -/
def dedup_consecutive : List Nat → List Nat
  | [] => []
  | [a] => [a]
  | a :: b :: rest =>
      if a = b then dedup_consecutive (b :: rest)
      else a :: dedup_consecutive (b :: rest)

/-- Batch removal (source: ExactSearchResultManager::remove_results_batch):
sort ascending, dedup, drop invalid indices, split at the RAM length,
compact each side with one two-pointer sweep, and decrement total_count
by the number of deleted items. -/
def ExactStore.remove_results_batch (st : ExactStore) (indices : List Nat) :
    ExactStore × Except String Unit :=
  if indices.isEmpty then (st, .ok ())
  else
    let indices := dedup_consecutive (indices.insertionSort (· ≤ ·))
    let indices := indices.filter (fun idx => idx < st.totalCount)
    if indices.isEmpty then (st, .ok ())
    else
      let deleteCount := indices.length
      let memoryLen := st.memoryBuffer.length
      let parts := indices.partition (fun idx => idx < memoryLen)
      let memoryIndices := parts.1
      let diskIndices := parts.2
      let st1 :=
        if memoryIndices.isEmpty then st
        else { st with
                memoryBuffer := remove_memory_batch st.memoryBuffer memoryIndices }
      let st2 :=
        if diskIndices.isEmpty then st1
        else st1.remove_disk_batch (diskIndices.map (fun idx => idx - memoryLen))
      ({ st2 with totalCount := st2.totalCount - deleteCount }, .ok ())

/-- Serial removal: apply remove_result to each index in list order,
stopping at the first error. -/
def ExactStore.removeSeq (st : ExactStore) :
    List Nat → ExactStore × Except String Unit
  | [] => (st, .ok ())
  | i :: rest =>
      match st.remove_result i with
      | (st2, .ok _) => st2.removeSeq rest
      | (st2, .error e) => (st2, .error e)

/-- Well-formedness of a store state: the cached total count agrees with
the two partitions. Every state reachable through the store operations
satisfies this. -/
def ExactStore.wf (st : ExactStore) : Prop :=
  st.totalCount = st.memoryBuffer.length + st.disk.length

/-- Reference form of positional batch deletion: keep the elements whose
position (counted from pos) is not in the delete set S. Both the batch
compaction sweeps and the serial descending removals are proved equal to
this form. -/
def keepFrom (pos : Nat) (S : List Nat) :
    List ExactSearchResultItem → List ExactSearchResultItem
  | [] => []
  | x :: rest =>
      if pos ∈ S then keepFrom (pos + 1) S rest
      else x :: keepFrom (pos + 1) S rest

theorem keepFrom_of_lt (l : List ExactSearchResultItem) (pos : Nat)
    (S : List Nat) (h : ∀ s ∈ S, s < pos) : keepFrom pos S l = l := by
  induction l generalizing pos with
  | nil => rfl
  | cons x rest ih =>
      have hx : pos ∉ S := fun hmem => absurd (h pos hmem) (lt_irrefl pos)
      simp only [keepFrom, if_neg hx]
      rw [ih (pos + 1) (fun s hs => Nat.lt_succ_of_lt (h s hs))]

theorem keepFrom_congr_ge (l : List ExactSearchResultItem) (pos : Nat)
    (S T : List Nat) (h : ∀ q, pos ≤ q → (q ∈ S ↔ q ∈ T)) :
    keepFrom pos S l = keepFrom pos T l := by
  induction l generalizing pos with
  | nil => rfl
  | cons x rest ih =>
      have hmem : pos ∈ S ↔ pos ∈ T := h pos (le_refl pos)
      have ihr := ih (pos + 1) (fun q hq => h q (by omega))
      by_cases hp : pos ∈ S
      · simp only [keepFrom, if_pos hp, if_pos (hmem.mp hp), ihr]
      · simp only [keepFrom, if_neg hp, if_neg (fun hT => hp (hmem.mpr hT)), ihr]

theorem compactLoop_eq (l : List ExactSearchResultItem) (pos : Nat)
    (dels : List Nat) (hsort : dels.Pairwise (· < ·))
    (hge : ∀ d ∈ dels, pos ≤ d) :
    compactLoop pos dels l = keepFrom pos dels l := by
  induction l generalizing pos dels with
  | nil => rfl
  | cons x rest ih =>
      match dels with
      | [] =>
          show x :: compactLoop (pos + 1) [] rest = keepFrom pos [] (x :: rest)
          rw [ih (pos + 1) [] List.Pairwise.nil (by simp),
            keepFrom_of_lt rest (pos + 1) [] (by simp),
            keepFrom_of_lt (x :: rest) pos [] (by simp)]
      | d :: ds =>
          rw [List.pairwise_cons] at hsort
          by_cases hpd : pos = d
          · have hmem : pos ∈ d :: ds := by simp [hpd]
            simp only [compactLoop, if_pos hpd, keepFrom, if_pos hmem]
            rw [ih (pos + 1) ds hsort.2
              (fun dd hdd => by have := hsort.1 dd hdd; omega)]
            exact keepFrom_congr_ge rest (pos + 1) ds (d :: ds)
              (fun q hq => by
                have : q ≠ d := by omega
                simp [this])
          · have hplt : pos < d := lt_of_le_of_ne (hge d (by simp)) hpd
            have hmem : pos ∉ d :: ds := by
              intro hin
              rcases List.mem_cons.mp hin with h1 | h2
              · exact hpd h1
              · have := hsort.1 pos h2; omega
            simp only [compactLoop, if_neg hpd, keepFrom, if_neg hmem]
            rw [ih (pos + 1) (d :: ds) (List.pairwise_cons.mpr hsort)
              (fun dd hdd => by
                rcases List.mem_cons.mp hdd with h1 | h2
                · omega
                · have := hsort.1 dd h2; omega)]

theorem compactDiskLoop_eq (l : List ExactSearchResultItem) (pos dc : Nat)
    (dels : List Nat) (hsort : dels.Pairwise (· < ·))
    (hge : ∀ d ∈ dels, pos ≤ d) (hlt : ∀ d ∈ dels, d < dc) :
    compactDiskLoop pos dc dels l = keepFrom pos dels l := by
  induction l generalizing pos dels with
  | nil => rfl
  | cons x rest ih =>
      match dels with
      | [] =>
          show x :: compactDiskLoop (pos + 1) dc [] rest = keepFrom pos [] (x :: rest)
          rw [ih (pos + 1) [] List.Pairwise.nil (by simp) (by simp),
            keepFrom_of_lt rest (pos + 1) [] (by simp),
            keepFrom_of_lt (x :: rest) pos [] (by simp)]
      | d :: ds =>
          rw [List.pairwise_cons] at hsort
          have hdc : ¬ dc ≤ d := by have := hlt d (by simp); omega
          by_cases hpd : pos = d
          · have hmem : pos ∈ d :: ds := by simp [hpd]
            simp only [compactDiskLoop, if_neg hdc, if_pos hpd, keepFrom,
              if_pos hmem]
            rw [ih (pos + 1) ds hsort.2
              (fun dd hdd => by have := hsort.1 dd hdd; omega)
              (fun dd hdd => hlt dd (by simp [hdd]))]
            exact keepFrom_congr_ge rest (pos + 1) ds (d :: ds)
              (fun q hq => by
                have : q ≠ d := by omega
                simp [this])
          · have hplt : pos < d := lt_of_le_of_ne (hge d (by simp)) hpd
            have hmem : pos ∉ d :: ds := by
              intro hin
              rcases List.mem_cons.mp hin with h1 | h2
              · exact hpd h1
              · have := hsort.1 pos h2; omega
            simp only [compactDiskLoop, if_neg hdc, if_neg hpd, keepFrom,
              if_neg hmem]
            rw [ih (pos + 1) (d :: ds) (List.pairwise_cons.mpr hsort)
              (fun dd hdd => by
                rcases List.mem_cons.mp hdd with h1 | h2
                · omega
                · have := hsort.1 dd h2; omega)
              hlt]

theorem keepFrom_split (S : List Nat) (k : Nat) :
    ∀ (l : List ExactSearchResultItem) (pos : Nat),
      (∀ s ∈ S, pos + k ≤ s) →
      keepFrom pos S l = l.take k ++ keepFrom (pos + k) S (l.drop k) := by
  induction k with
  | zero => intro l pos _; simp
  | succ k ih =>
      intro l pos h
      match l with
      | [] => simp [keepFrom]
      | x :: rest =>
          have hx : pos ∉ S := fun hmem => by have := h pos hmem; omega
          have harith : pos + (k + 1) = (pos + 1) + k := by omega
          rw [harith]
          simp only [keepFrom, if_neg hx, List.take_succ_cons, List.drop_succ_cons,
            List.cons_append]
          rw [ih rest (pos + 1) (fun s hs => by have := h s hs; omega)]

theorem dedup_consecutive_of_nodup (l : List Nat) (h : l.Nodup) :
    dedup_consecutive l = l := by
  match l with
  | [] => rfl
  | [a] => rfl
  | a :: b :: rest =>
      have hne : a ≠ b := by
        have := (List.nodup_cons.mp h).1
        simp at this
        exact fun hab => this.1 hab
      rw [dedup_consecutive, if_neg hne,
        dedup_consecutive_of_nodup (b :: rest) (List.nodup_cons.mp h).2]

theorem pairwise_lt_of_sorted_nodup (l : List Nat)
    (hs : l.Sorted (· ≤ ·)) (hn : l.Nodup) : l.Pairwise (· < ·) := by
  have := List.Pairwise.and hs hn
  exact this.imp (fun h => lt_of_le_of_ne h.1 h.2)

theorem keepFrom_eraseIdx (d : Nat) (S : List Nat) (hS : ∀ s ∈ S, s < d) :
    ∀ (l : List ExactSearchResultItem) (pos : Nat), pos ≤ d →
      keepFrom pos S (l.eraseIdx (d - pos)) = keepFrom pos (d :: S) l := by
  intro l
  induction l with
  | nil => intro pos _; simp [List.eraseIdx, keepFrom]
  | cons x rest ih =>
      intro pos hpos
      by_cases hpd : pos = d
      · subst hpd
        simp only [Nat.sub_self, List.eraseIdx_cons_zero]
        rw [keepFrom_of_lt rest pos S hS]
        have : keepFrom pos (pos :: S) (x :: rest)
            = keepFrom (pos + 1) (pos :: S) rest := by
          simp [keepFrom]
        rw [this, keepFrom_of_lt rest (pos + 1) (pos :: S)]
        intro s hs
        rcases List.mem_cons.mp hs with h1 | h2
        · omega
        · have := hS s h2; omega
      · have hlt : pos < d := lt_of_le_of_ne hpos hpd
        have hsub : d - pos = (d - (pos + 1)) + 1 := by omega
        rw [hsub, List.eraseIdx_cons_succ]
        have hmem : pos ∈ d :: S ↔ pos ∈ S := by
          simp [List.mem_cons, hpd]
        by_cases hp : pos ∈ S
        · simp only [keepFrom, if_pos hp, if_pos (hmem.mpr hp)]
          exact ih (pos + 1) (by omega)
        · simp only [keepFrom, if_neg hp, if_neg (fun h => hp (hmem.mp h))]
          rw [ih (pos + 1) (by omega)]

/-- Canonical result of deleting the index set S from a store: keep the
non-deleted positions on each side of the RAM boundary and subtract the
delete count. Proof-internal normal form for the batch and serial paths. -/
def batchSpec (st : ExactStore) (S : List Nat) : ExactStore :=
  { memoryBuffer :=
      keepFrom 0 (S.filter (fun i => i < st.memoryBuffer.length)) st.memoryBuffer,
    memoryBufferCapacity := st.memoryBufferCapacity,
    disk :=
      keepFrom 0
        ((S.filter (fun i => ! decide (i < st.memoryBuffer.length))).map
          (fun i => i - st.memoryBuffer.length)) st.disk,
    totalCount := st.totalCount - S.length }

theorem batchSpec_nil (st : ExactStore) : batchSpec st [] = st := by
  cases st with
  | mk mem cap disk total =>
      simp [batchSpec, keepFrom_of_lt _ 0 [] (by simp)]

theorem batchSpec_congr (st : ExactStore) (S T : List Nat)
    (hmem : ∀ q, q ∈ S ↔ q ∈ T) (hlen : S.length = T.length) :
    batchSpec st S = batchSpec st T := by
  have hf : ∀ (p : Nat → Bool) q, q ∈ S.filter p ↔ q ∈ T.filter p := by
    intro p q
    simp only [List.mem_filter]
    exact and_congr_left (fun _ => hmem q)
  simp only [batchSpec, hlen]
  rw [keepFrom_congr_ge st.memoryBuffer 0 _ _ (fun q _ => hf _ q),
    keepFrom_congr_ge st.disk 0 _ _ (fun q _ => by
      constructor
      · intro hq
        obtain ⟨i, hi, hfi⟩ := List.mem_map.mp hq
        exact List.mem_map.mpr ⟨i, (hf _ i).mp hi, hfi⟩
      · intro hq
        obtain ⟨i, hi, hfi⟩ := List.mem_map.mp hq
        exact List.mem_map.mpr ⟨i, (hf _ i).mpr hi, hfi⟩)]

theorem remove_memory_batch_eq (buf : List ExactSearchResultItem)
    (S : List Nat) (hp : S.Pairwise (· < ·)) (hlt : ∀ s ∈ S, s < buf.length) :
    remove_memory_batch buf S = keepFrom 0 S buf := by
  match S with
  | [] => rw [keepFrom_of_lt buf 0 [] (by simp)]; rfl
  | s0 :: S2 =>
      match buf with
      | [] =>
          simp [remove_memory_batch, keepFrom]
      | y :: buf2 =>
          have hfd : s0 < (y :: buf2).length := hlt s0 (by simp)
          have hmin : ∀ d ∈ s0 :: S2, s0 ≤ d := by
            intro d hd
            rcases List.mem_cons.mp hd with h1 | h2
            · omega
            · have := (List.pairwise_cons.mp hp).1 d h2; omega
          have hne : ¬ ((s0 :: S2).isEmpty = true ∨ ((y :: buf2).isEmpty = true)) := by
            simp
          rw [remove_memory_batch, if_neg hne]
          have : (s0 :: S2).headD 0 = s0 := rfl
          rw [this, if_neg (by omega)]
          rw [compactLoop_eq _ s0 _ hp hmin]
          rw [keepFrom_split (s0 :: S2) s0 (y :: buf2) 0 (by simpa using hmin)]
          rw [Nat.zero_add]

theorem remove_disk_batch_eq (st : ExactStore) (S : List Nat)
    (hp : S.Pairwise (· < ·)) (hlt : ∀ s ∈ S, s < st.disk.length) :
    st.remove_disk_batch S = { st with disk := keepFrom 0 S st.disk } := by
  match hSd : S with
  | [] =>
      rw [keepFrom_of_lt st.disk 0 [] (by simp)]
      rfl
  | s0 :: S2 =>
      have hfd : s0 < st.disk.length := hlt s0 (by simp)
      have hmin : ∀ d ∈ s0 :: S2, s0 ≤ d := by
        intro d hd
        rcases List.mem_cons.mp hd with h1 | h2
        · omega
        · have := (List.pairwise_cons.mp hp).1 d h2; omega
      have hne : ¬ ((s0 :: S2).isEmpty = true ∨ st.disk.length = 0) := by
        simp only [List.isEmpty_cons, Bool.false_eq_true, false_or]
        omega
      rw [ExactStore.remove_disk_batch, if_neg hne]
      have hhd : (s0 :: S2).headD 0 = s0 := rfl
      rw [hhd, if_neg (by omega)]
      rw [compactDiskLoop_eq _ s0 _ _ hp hmin hlt]
      rw [keepFrom_split (s0 :: S2) s0 st.disk 0 (by simpa using hmin)]
      rw [Nat.zero_add]

theorem removeSeq_desc (D : List Nat) :
    ∀ (st : ExactStore), st.wf → D.Pairwise (· > ·) →
      (∀ i ∈ D, i < st.totalCount) →
      st.removeSeq D = (batchSpec st D, .ok ()) := by
  induction D with
  | nil =>
      intro st _ _ _
      rw [batchSpec_nil]
      rfl
  | cons d ds ih =>
      intro st hwf hdesc hval
      have hd : d < st.totalCount := hval d (by simp)
      have hds : ∀ i ∈ ds, i < d :=
        fun i hi => (List.pairwise_cons.mp hdesc).1 i hi
      have hwf' : st.totalCount = st.memoryBuffer.length + st.disk.length := hwf
      by_cases hm : d < st.memoryBuffer.length
      · have hrr : st.remove_result d =
            ({ st with memoryBuffer := st.memoryBuffer.eraseIdx d,
                       totalCount := st.totalCount - 1 }, .ok ()) := by
          rw [ExactStore.remove_result, if_neg (by omega), if_pos hm]
        have hlen : (st.memoryBuffer.eraseIdx d).length
            = st.memoryBuffer.length - 1 := by
          rw [List.length_eraseIdx]
          simp [hm]
        have hih := ih { st with memoryBuffer := st.memoryBuffer.eraseIdx d,
                                 totalCount := st.totalCount - 1 }
          (by simp only [ExactStore.wf, hlen]; omega)
          (List.pairwise_cons.mp hdesc).2
          (by intro i hi; have := hds i hi; simp only []; omega)
        simp only [ExactStore.removeSeq, hrr]
        rw [hih]
        have hmemf : ds.filter (fun i => decide (i < (st.memoryBuffer.eraseIdx d).length)) = ds := by
          rw [List.filter_eq_self]
          intro i hi
          have := hds i hi
          simp only [hlen, decide_eq_true_eq]
          omega
        have hmemf2 : (d :: ds).filter (fun i => decide (i < st.memoryBuffer.length)) = d :: ds := by
          rw [List.filter_eq_self]
          intro i hi
          rcases List.mem_cons.mp hi with h1 | h2
          · subst h1; simpa using hm
          · have := hds i h2; simp only [decide_eq_true_eq]; omega
        have hdiskf : ds.filter (fun i => ! decide (i < (st.memoryBuffer.eraseIdx d).length)) = [] := by
          rw [List.filter_eq_nil_iff]
          intro i hi
          have h1 := hds i hi
          have h2 : i < (st.memoryBuffer.eraseIdx d).length := by
            rw [hlen]; omega
          simp [h2]
        have hdiskf2 : (d :: ds).filter (fun i => ! decide (i < st.memoryBuffer.length)) = [] := by
          rw [List.filter_eq_nil_iff]
          intro i hi
          have h2 : i < st.memoryBuffer.length := by
            rcases List.mem_cons.mp hi with h1 | h1
            · omega
            · have := hds i h1; omega
          simp [h2]
        have herase := keepFrom_eraseIdx d ds hds st.memoryBuffer 0 (Nat.zero_le d)
        simp only [Nat.sub_zero] at herase
        simp only [batchSpec, hmemf, hmemf2, hdiskf, hdiskf2, List.map_nil,
          herase, List.length_cons]
        have : st.totalCount - 1 - ds.length = st.totalCount - (ds.length + 1) := by
          omega
        rw [this]
      · have hdisklt : d - st.memoryBuffer.length < st.disk.length := by omega
        have hdi : st.remove_disk_item (d - st.memoryBuffer.length)
            = ({ st with disk := st.disk.eraseIdx (d - st.memoryBuffer.length) },
               .ok ()) := by
          rw [ExactStore.remove_disk_item, if_neg (by omega)]
        have hrr : st.remove_result d =
            ({ st with disk := st.disk.eraseIdx (d - st.memoryBuffer.length),
                       totalCount := st.totalCount - 1 }, .ok ()) := by
          rw [ExactStore.remove_result, if_neg (by omega : ¬ st.totalCount ≤ d),
            if_neg hm]
          simp only [hdi]
        have hlen : (st.disk.eraseIdx (d - st.memoryBuffer.length)).length
            = st.disk.length - 1 := by
          rw [List.length_eraseIdx]
          simp [hdisklt]
        have hih := ih { st with disk := st.disk.eraseIdx (d - st.memoryBuffer.length),
                                 totalCount := st.totalCount - 1 }
          (by simp only [ExactStore.wf, hlen]; omega)
          (List.pairwise_cons.mp hdesc).2
          (by intro i hi; have := hds i hi; simp only []; omega)
        simp only [ExactStore.removeSeq, hrr]
        rw [hih]
        have hmemf : (d :: ds).filter (fun i => decide (i < st.memoryBuffer.length))
            = ds.filter (fun i => decide (i < st.memoryBuffer.length)) := by
          rw [List.filter_cons_of_neg]
          simpa using hm
        have hdiskf : (d :: ds).filter (fun i => ! decide (i < st.memoryBuffer.length))
            = d :: ds.filter (fun i => ! decide (i < st.memoryBuffer.length)) := by
          rw [List.filter_cons_of_pos]
          simpa using hm
        have hS : ∀ s ∈ (ds.filter (fun i => ! decide (i < st.memoryBuffer.length))).map
            (fun i => i - st.memoryBuffer.length), s < d - st.memoryBuffer.length := by
          intro s hs
          obtain ⟨i, hi, rfl⟩ := List.mem_map.mp hs
          obtain ⟨hids, hige⟩ := List.mem_filter.mp hi
          have hlt := hds i hids
          have h1 : ¬ i < st.memoryBuffer.length := by simpa using hige
          omega
        have herase := keepFrom_eraseIdx (d - st.memoryBuffer.length) _ hS st.disk 0
          (Nat.zero_le _)
        rw [Nat.sub_zero] at herase
        simp only [batchSpec, hmemf, hdiskf, List.map_cons, herase,
          List.length_cons]
        have : st.totalCount - 1 - ds.length = st.totalCount - (ds.length + 1) := by
          omega
        rw [this]

theorem remove_results_batch_eq (st : ExactStore) (hwf : st.wf)
    (indices : List Nat) (hnd : indices.Nodup)
    (hval : ∀ i ∈ indices, i < st.totalCount) :
    st.remove_results_batch indices
      = (batchSpec st (indices.insertionSort (· ≤ ·)), .ok ()) := by
  match hind : indices with
  | [] =>
      rw [List.insertionSort, batchSpec_nil]
      rfl
  | i0 :: irest =>
      rw [← hind] at hnd hval ⊢
      have hne : ¬ indices.isEmpty = true := by rw [hind]; simp
      set asc := indices.insertionSort (· ≤ ·) with hasc
      have hperm : asc.Perm indices := List.perm_insertionSort _ indices
      have hsorted : asc.Sorted (· ≤ ·) := List.sorted_insertionSort _ indices
      have hascnd : asc.Nodup := (hperm.nodup_iff).mpr hnd
      have hasclt : asc.Pairwise (· < ·) :=
        pairwise_lt_of_sorted_nodup asc hsorted hascnd
      have hascval : ∀ i ∈ asc, i < st.totalCount :=
        fun i hi => hval i (hperm.mem_iff.mp hi)
      have hdedup : dedup_consecutive asc = asc :=
        dedup_consecutive_of_nodup asc hascnd
      have hfilter : asc.filter (fun idx => decide (idx < st.totalCount)) = asc := by
        rw [List.filter_eq_self]
        intro i hi
        simpa using hascval i hi
      have hascne : ¬ asc.isEmpty = true := by
        intro h
        rw [List.isEmpty_iff] at h
        rw [hind] at hperm
        have := hperm.length_eq
        rw [h] at this
        simp at this
      rw [ExactStore.remove_results_batch, if_neg hne]
      simp only [← hasc, hdedup, hfilter, if_neg hascne]
      rw [List.partition_eq_filter_filter]
      simp only [Function.comp_def]
      set memIdx := asc.filter (fun idx => decide (idx < st.memoryBuffer.length))
        with hmemIdx
      set dskIdx := asc.filter (fun idx => ! decide (idx < st.memoryBuffer.length))
        with hdskIdx
      set adjusted := dskIdx.map (fun idx => idx - st.memoryBuffer.length)
        with hadjusted
      -- RAM side
      have hmemlt : ∀ s ∈ memIdx, s < st.memoryBuffer.length := by
        intro s hs
        rw [hmemIdx] at hs
        simpa using (List.mem_filter.mp hs).2
      have hmempw : memIdx.Pairwise (· < ·) := hasclt.filter _
      have hst1 : (if memIdx.isEmpty = true then st
            else { st with memoryBuffer := remove_memory_batch st.memoryBuffer memIdx })
          = { st with memoryBuffer := keepFrom 0 memIdx st.memoryBuffer } := by
        by_cases hme : memIdx.isEmpty = true
        · rw [if_pos hme]
          rw [List.isEmpty_iff] at hme
          rw [hme, keepFrom_of_lt _ 0 [] (by simp)]
        · rw [if_neg hme, remove_memory_batch_eq _ _ hmempw hmemlt]
      -- Disk side
      have hdiskpw : adjusted.Pairwise (· < ·) := by
        rw [hadjusted]
        have base : dskIdx.Pairwise
            (fun a b => a - st.memoryBuffer.length < b - st.memoryBuffer.length) := by
          refine List.Pairwise.imp_of_mem ?_ (hasclt.filter _)
          intro a b ha hb hab
          have hage : ¬ a < st.memoryBuffer.length := by
            simpa using (List.mem_filter.mp ha).2
          omega
        exact List.Pairwise.map _ (fun a b hab => hab) base
      have hdisklt : ∀ s ∈ adjusted, s < st.disk.length := by
        intro s hs
        rw [hadjusted] at hs
        obtain ⟨i, hi, rfl⟩ := List.mem_map.mp hs
        rw [hdskIdx] at hi
        obtain ⟨hia, hige⟩ := List.mem_filter.mp hi
        have h1 : ¬ i < st.memoryBuffer.length := by simpa using hige
        have h2 : i < st.totalCount := hascval i hia
        have h3 := hwf
        rw [ExactStore.wf] at h3
        omega
      have hst2 : (if dskIdx.isEmpty = true then
              ({ st with memoryBuffer := keepFrom 0 memIdx st.memoryBuffer } : ExactStore)
            else ({ st with memoryBuffer := keepFrom 0 memIdx st.memoryBuffer }
              : ExactStore).remove_disk_batch adjusted)
          = { st with memoryBuffer := keepFrom 0 memIdx st.memoryBuffer,
                      disk := keepFrom 0 adjusted st.disk } := by
        by_cases hde : dskIdx.isEmpty = true
        · rw [if_pos hde]
          rw [List.isEmpty_iff] at hde
          rw [hadjusted, hde, List.map_nil, keepFrom_of_lt _ 0 [] (by simp)]
        · rw [if_neg hde]
          exact remove_disk_batch_eq _ adjusted hdiskpw (fun s hs => hdisklt s hs)
      rw [hst1, hst2]
      rfl

/-- C3: on a well-formed store, for any list of unique valid indices,
remove_results_batch produces exactly the same final store (RAM buffer,
disk contents and total count) as calling remove_result once per index
in descending index order. -/
theorem remove_batch_eq_serial_desc (st : ExactStore) (hwf : st.wf)
    (indices : List Nat) (hnd : indices.Nodup)
    (hval : ∀ i ∈ indices, i < st.totalCount) :
    st.remove_results_batch indices
      = st.removeSeq ((indices.insertionSort (· ≤ ·)).reverse) := by
  have hperm : (indices.insertionSort (· ≤ ·)).Perm indices :=
    List.perm_insertionSort _ indices
  have hsorted : (indices.insertionSort (· ≤ ·)).Sorted (· ≤ ·) :=
    List.sorted_insertionSort _ indices
  have hascnd : (indices.insertionSort (· ≤ ·)).Nodup := (hperm.nodup_iff).mpr hnd
  have hasclt := pairwise_lt_of_sorted_nodup _ hsorted hascnd
  have hdesc : ((indices.insertionSort (· ≤ ·)).reverse).Pairwise (· > ·) := by
    rw [List.pairwise_reverse]
    exact hasclt
  have hdval : ∀ i ∈ (indices.insertionSort (· ≤ ·)).reverse, i < st.totalCount := by
    intro i hi
    rw [List.mem_reverse] at hi
    exact hval i (hperm.mem_iff.mp hi)
  rw [remove_results_batch_eq st hwf indices hnd hval,
    removeSeq_desc _ st hwf hdesc hdval]
  rw [batchSpec_congr st (indices.insertionSort (· ≤ ·))
    ((indices.insertionSort (· ≤ ·)).reverse)
    (fun q => (List.mem_reverse).symm) (List.length_reverse _).symm]

/-- Witness for C3 at a concrete store (two RAM items, two disk items)
and the unique valid index list [3, 0]. -/
theorem remove_batch_eq_serial_desc_witness :
    (⟨[⟨0, .Dword⟩, ⟨4, .Dword⟩], 2, [⟨8, .Dword⟩, ⟨12, .Dword⟩], 4⟩
        : ExactStore).wf ∧
    ([3, 0] : List Nat).Nodup ∧
    (∀ i ∈ ([3, 0] : List Nat),
      i < (⟨[⟨0, .Dword⟩, ⟨4, .Dword⟩], 2, [⟨8, .Dword⟩, ⟨12, .Dword⟩], 4⟩
        : ExactStore).totalCount) ∧
    (⟨[⟨0, .Dword⟩, ⟨4, .Dword⟩], 2, [⟨8, .Dword⟩, ⟨12, .Dword⟩], 4⟩
        : ExactStore).remove_results_batch [3, 0]
      = (⟨[⟨0, .Dword⟩, ⟨4, .Dword⟩], 2, [⟨8, .Dword⟩, ⟨12, .Dword⟩], 4⟩
        : ExactStore).removeSeq ((([3, 0] : List Nat).insertionSort (· ≤ ·)).reverse) := by
  have hwf : (⟨[⟨0, .Dword⟩, ⟨4, .Dword⟩], 2, [⟨8, .Dword⟩, ⟨12, .Dword⟩], 4⟩
      : ExactStore).wf := by
    show (4 : Nat) = 2 + 2
    rfl
  exact ⟨hwf, by decide, by decide,
    remove_batch_eq_serial_desc
      ⟨[⟨0, .Dword⟩, ⟨4, .Dword⟩], 2, [⟨8, .Dword⟩, ⟨12, .Dword⟩], 4⟩
      hwf [3, 0] (by decide) (by decide)⟩

/-- C10: on a well-formed store, remove_result with an out-of-range index
returns an error and leaves the store unchanged, while remove_result with
a valid index succeeds and decreases total_count by exactly one. -/
theorem remove_result_spec (st : ExactStore) (hwf : st.wf) (i : Nat) :
    (st.totalCount ≤ i →
      st.remove_result i = (st, .error "Index out of bounds")) ∧
    (i < st.totalCount →
      (st.remove_result i).2 = .ok () ∧
      (st.remove_result i).1.totalCount + 1 = st.totalCount) := by
  constructor
  · intro hge
    rw [ExactStore.remove_result, if_pos hge]
  · intro hlt
    have hwf' : st.totalCount = st.memoryBuffer.length + st.disk.length := hwf
    rw [ExactStore.remove_result, if_neg (by omega)]
    by_cases hm : i < st.memoryBuffer.length
    · rw [if_pos hm]
      exact ⟨rfl, by simp only []; omega⟩
    · rw [if_neg hm]
      have hdi : st.remove_disk_item (i - st.memoryBuffer.length)
          = ({ st with disk := st.disk.eraseIdx (i - st.memoryBuffer.length) },
             .ok ()) := by
        rw [ExactStore.remove_disk_item, if_neg (by omega)]
      simp only [hdi]
      refine ⟨trivial, ?_⟩
      show st.totalCount - 1 + 1 = st.totalCount
      omega

/-- Witness for C10 at a concrete store with one RAM and one disk item,
removing the disk-side index 1. -/
theorem remove_result_spec_witness :
    (⟨[⟨0, .Dword⟩], 1, [⟨4, .Dword⟩], 2⟩ : ExactStore).wf ∧
    (1 < (⟨[⟨0, .Dword⟩], 1, [⟨4, .Dword⟩], 2⟩ : ExactStore).totalCount) ∧
    ((⟨[⟨0, .Dword⟩], 1, [⟨4, .Dword⟩], 2⟩ : ExactStore).remove_result 1).2
      = .ok () := by
  have hwf : (⟨[⟨0, .Dword⟩], 1, [⟨4, .Dword⟩], 2⟩ : ExactStore).wf := by
    show (2 : Nat) = 1 + 1
    rfl
  refine ⟨hwf, by decide, ?_⟩
  exact ((remove_result_spec ⟨[⟨0, .Dword⟩], 1, [⟨4, .Dword⟩], 2⟩ hwf 1).2
    (by decide)).1

/-! ## Scanners (search/engine/single_search.rs, group_search.rs)

Addresses are modeled as Nat; the page size is a parameter ps (the source
reads the sysconf page size, defaulting to 4096). The address-mask
operation addr AND NOT(ps - 1) is modeled as addr - addr % ps, which is
the same value for the power-of-two page sizes the mask form assumes.
The while loops of the source advance the scan address by a positive
step until a bound; they are modeled with a structurally recursive step
counter (fuel) checked alongside the loop condition, started with enough
fuel that the counter never runs out before the loop condition stops
the scan. -/

/-- Address and value-type pair (source: struct ValuePair in
engine/manager.rs; ordered by addr). -/
structure ValuePair where
  addr : Nat
  valueType : ValueType
deriving DecidableEq, Repr

/-- Modelled from the spec: struct PageStatusBitmap (crate::wuwa) is not
under src/. Per spec section 4.1, a bitmap over relative page numbers
from the aligned base, with num_pages = ceil((base+len)/PAGE) -
floor(base/PAGE), mark/test operations and maximal success-run
extraction. -/
structure PageStatusBitmap where
  numPages : Nat
  bits : List Bool
deriving DecidableEq, Repr

/-- Modelled from the spec: bitmap construction from (length, base_addr),
all pages initially unsuccessful. -/
def PageStatusBitmap.new (ps len base : Nat) : PageStatusBitmap :=
  let n := (base + len + ps - 1) / ps - base / ps
  ⟨n, List.replicate n false⟩

/-- Modelled from the spec: mark one relative page as read successfully. -/
def PageStatusBitmap.mark_success (b : PageStatusBitmap) (i : Nat) :
    PageStatusBitmap :=
  { b with bits := b.bits.set i true }

/-- Modelled from the spec: test one relative page. -/
def PageStatusBitmap.is_page_success (b : PageStatusBitmap) (i : Nat) : Bool :=
  b.bits.getD i false

/-- Modelled from the spec: number of successfully read pages. -/
def PageStatusBitmap.success_count (b : PageStatusBitmap) : Nat :=
  b.bits.count true

/-- Maximal runs of set bits, as half-open (start_page, end_page) pairs
(spec: success_page_ranges with maximal run-length encoding). -/
def successRunsAux : Nat → Option Nat → List Bool → List (Nat × Nat)
  | pos, some s, [] => [(s, pos)]
  | _, none, [] => []
  | pos, some s, b :: rest =>
      if b then successRunsAux (pos + 1) (some s) rest
      else (s, pos) :: successRunsAux (pos + 1) none rest
  | pos, none, b :: rest =>
      if b then successRunsAux (pos + 1) (some pos) rest
      else successRunsAux (pos + 1) none rest

/-- Modelled from the spec: maximal contiguous runs of successful pages. -/
def PageStatusBitmap.get_success_page_ranges (b : PageStatusBitmap) :
    List (Nat × Nat) :=
  successRunsAux 0 none b.bits

/-- Scan loop of the single-value scanner (source: the while loop of
search_in_buffer_with_status): walk aligned addresses, tracking the
kernel-style page index that increments on each page-VA transition after
the first, and collect matches on successfully read pages. Insertion
into the per-region B+ tree set is modeled by appending the pair. -/
def search_loop (fs : FloatSem) (buffer : List Nat)
    (bufferAddr searchEnd es : Nat) (target : SearchValue) (vt : ValueType)
    (ps : Nat) (status : PageStatusBitmap) :
    Nat → Nat → Nat → Option Nat → List ValuePair → List ValuePair
  | 0, _, _, _, results => results
  | fuel + 1, addr, pageIndex, lastPageVa, results =>
      if addr + es ≤ searchEnd then
        let offset := addr - bufferAddr
        if offset + es ≤ buffer.length then
          let pageVa := addr - addr % ps
          let bump : Bool :=
            match lastPageVa with
            | some v => pageVa ≠ v
            | none => false
          let pageIndex2 := if bump then pageIndex + 1 else pageIndex
          let results2 :=
            if pageIndex2 < status.numPages ∧
                status.is_page_success pageIndex2 = true then
              if target.matched fs ((buffer.drop offset).take es) = some true then
                results ++ [⟨addr, vt⟩]
              else results
            else results
          search_loop fs buffer bufferAddr searchEnd es target vt ps status
            fuel (addr + es) pageIndex2 (some pageVa) results2
        else
          search_loop fs buffer bufferAddr searchEnd es target vt ps status
            fuel (addr + es) pageIndex lastPageVa results
      else results

/-- Single-value in-buffer scan (source: search_in_buffer_with_status):
clip the buffer to the region, round the start address up to the element
alignment, then run the scan loop. -/
def search_in_buffer_with_status (fs : FloatSem) (buffer : List Nat)
    (bufferAddr regionStart regionEnd es : Nat) (target : SearchValue)
    (vt : ValueType) (ps : Nat) (status : PageStatusBitmap)
    (results : List ValuePair) : List ValuePair :=
  let bufferEnd := bufferAddr + buffer.length
  let searchStart := max bufferAddr regionStart
  let searchEnd := min bufferEnd regionEnd
  let rem := searchStart % es
  let firstAddr := if rem = 0 then searchStart else searchStart + es - rem
  search_loop fs buffer bufferAddr searchEnd es target vt ps status
    (searchEnd + 1) firstAddr 0 none results

theorem mem_ite_append (p x : ValuePair) (res : List ValuePair)
    (c1 c2 : Prop) [Decidable c1] [Decidable c2] :
    p ∈ (if c1 then if c2 then res ++ [x] else res else res) →
      p ∈ res ∨ p = x := by
  intro h
  split at h
  · split at h
    · rcases List.mem_append.mp h with h1 | h2
      · exact Or.inl h1
      · exact Or.inr (by simpa using h2)
    · exact Or.inl h
  · exact Or.inl h

theorem search_loop_aligned (fs : FloatSem) (buffer : List Nat)
    (bufferAddr searchEnd : Nat) (target : SearchValue) (vt : ValueType)
    (ps : Nat) (status : PageStatusBitmap) :
    ∀ (fuel addr pageIndex : Nat) (lastPageVa : Option Nat)
      (results : List ValuePair), addr % vt.size = 0 →
      ∀ p ∈ search_loop fs buffer bufferAddr searchEnd vt.size target vt ps
          status fuel addr pageIndex lastPageVa results,
        p ∈ results ∨ p.addr % p.valueType.size = 0 := by
  intro fuel
  induction fuel with
  | zero =>
      intro addr pageIndex lastPageVa results _ p hp
      exact Or.inl hp
  | succ fuel ih =>
      intro addr pageIndex lastPageVa results ha p hp
      have ha2 : (addr + vt.size) % vt.size = 0 := by
        rw [Nat.add_mod_right]
        exact ha
      simp only [search_loop] at hp
      split at hp
      · split at hp
        · have := ih (addr + vt.size) _ _ _ ha2 p hp
          rcases this with hmem | hal
          · rcases mem_ite_append p ⟨addr, vt⟩ results _ _ hmem with h1 | h2
            · exact Or.inl h1
            · right
              rw [h2]
              exact ha
          · exact Or.inr hal
        · exact ih (addr + vt.size) _ _ _ ha2 p hp
      · exact Or.inl hp

/-- C1 amended, positive part: in the single-value scan with the element
size of the searched type (as passed by search_region), every pair added
to the result set is aligned for its own value type. -/
theorem single_search_alignment (fs : FloatSem) (buffer : List Nat)
    (bufferAddr regionStart regionEnd : Nat) (target : SearchValue)
    (vt : ValueType) (ps : Nat) (status : PageStatusBitmap)
    (results : List ValuePair) :
    ∀ p ∈ search_in_buffer_with_status fs buffer bufferAddr regionStart
        regionEnd vt.size target vt ps status results,
      p ∈ results ∨ p.addr % p.valueType.size = 0 := by
  intro p hp
  rw [search_in_buffer_with_status] at hp
  refine search_loop_aligned fs buffer bufferAddr _ target vt ps status _ _ 0
    none results ?_ p hp
  have hsz := vt.size_pos
  by_cases hrem : (max bufferAddr regionStart) % vt.size = 0
  · rw [if_pos hrem]
    exact hrem
  · rw [if_neg hrem]
    have hkey : max bufferAddr regionStart + vt.size
          - (max bufferAddr regionStart) % vt.size
        = vt.size * ((max bufferAddr regionStart) / vt.size + 1) := by
      have hmd := Nat.mod_add_div (max bufferAddr regionStart) vt.size
      have hle : (max bufferAddr regionStart) % vt.size
          ≤ max bufferAddr regionStart := Nat.mod_le _ _
      have hlt : (max bufferAddr regionStart) % vt.size < vt.size :=
        Nat.mod_lt _ hsz
      have hmul : vt.size * ((max bufferAddr regionStart) / vt.size + 1)
          = vt.size * ((max bufferAddr regionStart) / vt.size) + vt.size := by
        ring
      omega
    rw [hkey, Nat.mul_mod_right]

/-- Greedy per-value scan inside a match window (source: the inner while
loops of try_match_ordered and try_match_unordered): advance by the
value's own size until the value matches or the window is exhausted.
The fuel buf.length + 1 exceeds the number of iterations, which each
advance the offset by at least one byte. -/
def findValueOffset (fs : FloatSem) (buf : List Nat) (v : SearchValue) :
    Nat → Nat → Option Nat
  | 0, _ => none
  | fuel + 1, off =>
      let sz := v.valueType.size
      if off + sz ≤ buf.length then
        if v.matched fs ((buf.drop off).take sz) = some true then some off
        else findValueOffset fs buf v fuel (off + sz)
      else none

/-- Sequential matcher loop (source: the for loop of try_match_ordered):
each value is searched from the offset right after the previous match. -/
def tryMatchOrderedLoop (fs : FloatSem) (buf : List Nat) :
    List SearchValue → Nat → Option (List Nat)
  | [], _ => some []
  | v :: rest, off =>
      match findValueOffset fs buf v (buf.length + 1) off with
      | some o =>
          match tryMatchOrderedLoop fs buf rest (o + v.valueType.size) with
          | some os => some (o :: os)
          | none => none
      | none => none

/-- Ordered greedy matcher (source: try_match_ordered). -/
def try_match_ordered (fs : FloatSem) (buf : List Nat) (q : SearchQuery) :
    Option (List Nat) :=
  tryMatchOrderedLoop fs buf q.values 0

/-- Unordered greedy matcher (source: try_match_unordered): each value is
searched independently from offset 0 in steps of its own size; all must
be found. The source initialises all slots to None and only fills a slot
in its own iteration, so the is_some skip never fires. -/
def try_match_unordered (fs : FloatSem) (buf : List Nat) (q : SearchQuery) :
    Option (List Nat) :=
  let opts := q.values.map (fun v => findValueOffset fs buf v (buf.length + 1) 0)
  if opts.all (fun o => o.isSome) then some (opts.map (fun o => o.getD 0))
  else none

/-- Mode dispatch (source: try_match_group_at_address; the address
argument is unused by both matchers). -/
def try_match_group_at_address (fs : FloatSem) (buf : List Nat)
    (q : SearchQuery) : Option (List Nat) :=
  match q.mode with
  | .Ordered => try_match_ordered fs buf q
  | .Unordered => try_match_unordered fs buf q

/-- Address loop of the fallback group scanner (source: the while loop of
search_in_buffer_group_fallback): walk addresses aligned only to the
minimum element size, check the window of query.range bytes, and insert
every matched value at its window-relative offset. -/
def fallbackAddrLoop (fs : FloatSem) (buffer : List Nat)
    (bufferAddr bufferEnd searchEnd mes rangeEnd : Nat) (q : SearchQuery) :
    Nat → Nat → List ValuePair → List ValuePair
  | 0, _, results => results
  | fuel + 1, addr, results =>
      if addr < rangeEnd then
        let offset := addr - bufferAddr
        let results2 :=
          if offset < buffer.length then
            let rangeEndCheck := min (min (addr + q.range) bufferEnd) searchEnd
            let rangeSize := rangeEndCheck - addr
            if q.range ≤ rangeSize ∧ offset + rangeSize ≤ buffer.length then
              match try_match_group_at_address fs
                  ((buffer.drop offset).take rangeSize) q with
              | some offsets =>
                  results ++ (offsets.zip q.values).map
                    (fun ov => ⟨addr + ov.1, ov.2.valueType⟩)
              | none => results
            else results
          else results
        fallbackAddrLoop fs buffer bufferAddr bufferEnd searchEnd mes rangeEnd
          q fuel (addr + mes) results2
      else results

/-- Fallback group scanner (source: search_in_buffer_group_fallback, the
path search_in_buffer_group takes when no query value is Fixed): for
each maximal successful page range, clip to the buffer and region and
scan addresses aligned to min_element_size. -/
def search_in_buffer_group_fallback (fs : FloatSem) (buffer : List Nat)
    (bufferAddr regionStart regionEnd mes : Nat) (q : SearchQuery)
    (ps : Nat) (status : PageStatusBitmap) (results : List ValuePair) :
    List ValuePair :=
  let bufferEnd := bufferAddr + buffer.length
  let searchStart := max bufferAddr regionStart
  let searchEnd := min bufferEnd regionEnd
  let rem := searchStart % mes
  let firstAddr := if rem = 0 then searchStart else searchStart + mes - rem
  let pageRanges := status.get_success_page_ranges
  let bufferPageStart := bufferAddr - bufferAddr % ps
  pageRanges.foldl (fun acc pr =>
    let pageRangeStart := bufferPageStart + pr.1 * ps
    let pageRangeEnd := bufferPageStart + pr.2 * ps
    let rangeStart := max pageRangeStart bufferAddr
    let rangeEnd := min (min pageRangeEnd searchEnd) bufferEnd
    if rangeStart < rangeEnd then
      let addr0 :=
        if rangeStart ≤ firstAddr then firstAddr
        else
          let rem2 := rangeStart % mes
          if rem2 = 0 then rangeStart else rangeStart + mes - rem2
      fallbackAddrLoop fs buffer bufferAddr bufferEnd searchEnd mes rangeEnd
        q (rangeEnd + 1) addr0 acc
    else acc) results

/-- Counterexample to C1 as stated: in the fallback group scan (taken by
search_in_buffer_group whenever no query value is Fixed), scan addresses
are aligned only to the minimum element size of the query, while matched
values are inserted at window-relative offsets aligned within the
window. Querying the all-zero 8-byte buffer at address 0 for the group
[Byte in 0..10, Dword in 0..10] (Unordered, range 4) inserts the pair
(addr 1, Dword), and 1 mod 4 is not 0. -/
theorem group_fallback_misalignment_counterexample :
    (⟨1, ValueType.Dword⟩ : ValuePair) ∈
        search_in_buffer_group_fallback trivFloatSem (List.replicate 8 0)
          0 0 8 1
          ⟨[SearchValue.RangeInt 0 10 .Byte false,
            SearchValue.RangeInt 0 10 .Dword false], .Unordered, 4⟩
          4096 ⟨1, [true]⟩ [] ∧
      (1 : Nat) % ValueType.Dword.size ≠ 0 := by decide

/-- Witness for the amended C1 theorem at a concrete scan: the pair at
address 0 found by a Dword range scan over an all-zero buffer is either
pre-existing (it is not: results start empty) or Dword-aligned. -/
theorem single_search_alignment_witness :
    (⟨0, ValueType.Dword⟩ : ValuePair) ∈ ([] : List ValuePair) ∨
      (ValuePair.addr ⟨0, ValueType.Dword⟩) %
        (ValuePair.valueType ⟨0, ValueType.Dword⟩).size = 0 :=
  single_search_alignment trivFloatSem (List.replicate 8 0) 0 0 8
    (SearchValue.RangeInt 0 10 .Dword false) .Dword 4096 ⟨1, [true]⟩ []
    ⟨0, ValueType.Dword⟩ (by decide)

/-! ## Engine manager state machine (search/engine/manager.rs)

The control flow below is translated from manager.rs, which is in the
source tree. The SharedBuffer type itself lives in
engine/shared_buffer.rs, which is not under src/; its fields and write
operations are modelled from the spec (section 4.9: per-field atomic
status/progress/regions_done/found_count/error_code/heartbeat/cancel_req
header). -/

/-- Search status written to the shared buffer (spec section 4.9:
0=Idle, 1=Searching, 2=Completed, 3=Cancelled, 4=Error). -/
inductive SearchStatus where
  | Idle | Searching | Completed | Cancelled | Error
deriving DecidableEq, Repr

/-- Error codes (spec section 7; the source writes NotInitialized,
AlreadySearching and InternalError on the paths modelled here). -/
inductive SearchErrorCode where
  | NoError | NotInitialized | AlreadySearching | InvalidArgument
  | Io | ReaderFailure | InternalError
deriving DecidableEq, Repr

/-- Modelled from the spec: the 32-byte shared progress header (spec
section 4.9), one field per header word. -/
structure SharedBuffer where
  status : SearchStatus
  progress : Nat
  regionsDone : Nat
  foundCount : Int
  errorCode : SearchErrorCode
  heartbeat : Nat
  cancelReq : Bool
deriving DecidableEq, Repr

/-- Modelled from the spec: atomic status write. -/
def SharedBuffer.write_status (b : SharedBuffer) (s : SearchStatus) :
    SharedBuffer :=
  { b with status := s }

/-- Modelled from the spec: atomic error-code write. -/
def SharedBuffer.write_error_code (b : SharedBuffer) (c : SearchErrorCode) :
    SharedBuffer :=
  { b with errorCode := c }

/-- Modelled from the spec: atomic found-count write. -/
def SharedBuffer.write_found_count (b : SharedBuffer) (n : Int) :
    SharedBuffer :=
  { b with foundCount := n }

/-- Modelled from the spec: reset of the scan-progress fields at the
start of a scan (the found counter is reset at the start of each scan,
spec section 4.8; the host-written cancel flag is cleared by the
separate clear_cancel_flag call the source makes right after reset). -/
def SharedBuffer.reset (b : SharedBuffer) : SharedBuffer :=
  { b with status := .Idle, progress := 0, regionsDone := 0,
           foundCount := 0, errorCode := .NoError }

/-- Modelled from the spec: clear the host-written cancel request. -/
def SharedBuffer.clear_cancel_flag (b : SharedBuffer) : SharedBuffer :=
  { b with cancelReq := false }

/-- Clear the result store (source: ExactSearchResultManager::clear:
memory_buffer.clear(), total_count = 0, disk_count = 0; the disk file is
kept but its logical content is discarded). -/
def ExactStore.clear (st : ExactStore) : ExactStore :=
  { st with memoryBuffer := [], disk := [], totalCount := 0 }

/-- Manager state (source: struct SearchEngineManager): result_manager
is Some exactly after init; searching models is_searching(), i.e. a
spawned task handle that has not finished. -/
structure EngineState where
  resultManager : Option ExactStore
  searching : Bool
  sharedBuffer : SharedBuffer
deriving DecidableEq, Repr

/-- Outcome of a start call: the new manager state, whether an async
search task was spawned, and the returned Result. -/
structure StartOutcome where
  state : EngineState
  spawned : Bool
  result : Except String Unit
deriving Repr

/-- Async search entry (source: start_search_async): reject before init
and while a search is in flight, writing status Error with the matching
error code; otherwise clear the store, reset the shared buffer, write
Searching and spawn the task. The query, regions and deep flag do not
affect this control flow and are omitted. -/
def start_search_async (st : EngineState) : StartOutcome :=
  if st.resultManager.isSome = false then
    ⟨{ st with sharedBuffer :=
        ((st.sharedBuffer.write_status .Error).write_error_code
          .NotInitialized) },
      false, .error "SearchEngineManager not initialized"⟩
  else if st.searching then
    ⟨{ st with sharedBuffer :=
        ((st.sharedBuffer.write_status .Error).write_error_code
          .AlreadySearching) },
      false, .error "Search already in progress"⟩
  else
    match st.resultManager with
    | none => ⟨st, false, .error "result_manager not available"⟩
    | some mgr =>
        ⟨⟨some mgr.clear, true,
          ((st.sharedBuffer.reset).clear_cancel_flag).write_status
            .Searching⟩,
          true, .ok ()⟩

/-- Async refine entry (source: start_refine_async): same two error
gates; then if the store is empty write Completed with found 0 and spawn
nothing, else reset the buffer, write Searching and spawn the task (the
store itself is read, not cleared). -/
def start_refine_async (st : EngineState) : StartOutcome :=
  if st.resultManager.isSome = false then
    ⟨{ st with sharedBuffer :=
        ((st.sharedBuffer.write_status .Error).write_error_code
          .NotInitialized) },
      false, .error "SearchEngineManager not initialized"⟩
  else if st.searching then
    ⟨{ st with sharedBuffer :=
        ((st.sharedBuffer.write_status .Error).write_error_code
          .AlreadySearching) },
      false, .error "Search already in progress"⟩
  else
    match st.resultManager with
    | none => ⟨st, false, .error "result_manager not available"⟩
    | some mgr =>
        if (mgr.memoryBuffer ++ mgr.disk).isEmpty then
          ⟨{ st with sharedBuffer :=
              ((st.sharedBuffer.write_status .Completed).write_found_count
                0) },
            false, .ok ()⟩
        else
          ⟨⟨some mgr, true,
            ((st.sharedBuffer.reset).clear_cancel_flag).write_status
              .Searching⟩,
            true, .ok ()⟩

/-- C8: start_search_async and start_refine_async called before init
return an error, write status Error with code NotInitialized, spawn no
task, and leave the result store untouched; called while a search is in
flight they return an error, write status Error with code
AlreadySearching, spawn no task, and leave the result store untouched. -/
theorem start_gates_spec (st : EngineState) :
    (st.resultManager = none →
      ∀ f ∈ [start_search_async, start_refine_async],
        (f st).result.isOk = false ∧ (f st).spawned = false ∧
        (f st).state.sharedBuffer.status = .Error ∧
        (f st).state.sharedBuffer.errorCode = .NotInitialized ∧
        (f st).state.resultManager = st.resultManager) ∧
    (st.resultManager ≠ none → st.searching = true →
      ∀ f ∈ [start_search_async, start_refine_async],
        (f st).result.isOk = false ∧ (f st).spawned = false ∧
        (f st).state.sharedBuffer.status = .Error ∧
        (f st).state.sharedBuffer.errorCode = .AlreadySearching ∧
        (f st).state.resultManager = st.resultManager) := by
  constructor
  · intro hnone f hf
    have hs : st.resultManager.isSome = false := by
      rw [hnone]; rfl
    fin_cases hf <;>
      simp [start_search_async, start_refine_async, hs, Except.isOk,
        Except.toBool, SharedBuffer.write_status,
        SharedBuffer.write_error_code]
  · intro hsome hsearch f hf
    have hs : st.resultManager.isSome = true := by
      cases h : st.resultManager with
      | none => exact absurd h hsome
      | some m => rfl
    fin_cases hf <;>
      simp [start_search_async, start_refine_async, hs, hsearch,
        Except.isOk, Except.toBool, SharedBuffer.write_status,
        SharedBuffer.write_error_code]

/-- Witness for C8: a concrete uninitialised manager and a concrete
busy manager exercise both gates for both entry points. -/
theorem start_gates_spec_witness :
    ((start_search_async ⟨none, false, ⟨.Idle, 0, 0, 0, .NoError, 0,
        false⟩⟩).state.sharedBuffer.errorCode = .NotInitialized) ∧
    ((start_refine_async ⟨some ⟨[], 2, [], 0⟩, true, ⟨.Idle, 0, 0, 0,
        .NoError, 0, false⟩⟩).state.sharedBuffer.errorCode =
      .AlreadySearching) :=
  ⟨(((start_gates_spec ⟨none, false, ⟨.Idle, 0, 0, 0, .NoError, 0,
        false⟩⟩).1 rfl start_search_async (by simp)).2.2).2.1,
   (((start_gates_spec ⟨some ⟨[], 2, [], 0⟩, true, ⟨.Idle, 0, 0, 0,
        .NoError, 0, false⟩⟩).2 (by simp) rfl start_refine_async
      (by simp)).2.2).2.1⟩

/-! ## Search-task completion discipline (run_search_task) -/

/-- Observable actions of run_search_task after the parallel fan-out,
in program order (source: the tail of run_search_task). -/
inductive TaskEvent where
  | acquireWrite
  | drainResults
  | writeFoundCount
  | writeProgress
  | writeRegionsDone
  | releaseWrite
  | writeStatus (s : SearchStatus)
  | writeErrorCode (c : SearchErrorCode)
deriving DecidableEq, Repr

/-- Event trace of the tail of run_search_task (source: run_search_task
after the spawn_blocking await), as a function of whether the scan was
cancelled, whether the engine write lock was acquired, and whether
result_manager was present under the lock: on cancellation only
Cancelled is written; otherwise the per-region sets are drained and the
progress fields written under the write lock, the lock is released, and
only then Completed (on success) or Error/InternalError is written. -/
def run_search_task_trace (cancelled lockOk mgrSome : Bool) :
    List TaskEvent :=
  if cancelled then [.writeStatus .Cancelled]
  else if lockOk then
    (if mgrSome then
      [.acquireWrite, .drainResults, .writeFoundCount, .writeProgress,
       .writeRegionsDone, .releaseWrite]
    else [.acquireWrite, .releaseWrite]) ++
    (if mgrSome then [.writeStatus .Completed]
     else [.writeStatus .Error, .writeErrorCode .InternalError])
  else [.writeStatus .Error, .writeErrorCode .InternalError]

/-- Engine write-lock depth after a trace prefix. -/
def lockDepth (tr : List TaskEvent) : Int :=
  tr.foldl (fun d e =>
    match e with
    | .acquireWrite => d + 1
    | .releaseWrite => d - 1
    | _ => d) 0

/-- C9: in every execution of the run_search_task tail, a Completed
status write happens only with the engine write lock released (depth 0),
strictly after the drain of the per-region sets into the store and after
the lock release; and the store is never drained (mutated) after the
lock release. -/
theorem run_search_task_completion_discipline :
    ∀ (cancelled lockOk mgrSome : Bool),
      (∀ i, i < (run_search_task_trace cancelled lockOk mgrSome).length →
        (run_search_task_trace cancelled lockOk mgrSome).getD i
            .writeProgress = .writeStatus .Completed →
        lockDepth ((run_search_task_trace cancelled lockOk
            mgrSome).take i) = 0 ∧
        (∃ j, j < i ∧ (run_search_task_trace cancelled lockOk
          mgrSome).getD j .writeProgress = .drainResults) ∧
        (∃ k, k < i ∧ (run_search_task_trace cancelled lockOk
          mgrSome).getD k .writeProgress = .releaseWrite)) ∧
      (∀ j, j < (run_search_task_trace cancelled lockOk
          mgrSome).length →
        (run_search_task_trace cancelled lockOk mgrSome).getD j
            .writeProgress = .drainResults →
        ∀ k, k < j → (run_search_task_trace cancelled lockOk
          mgrSome).getD k .writeProgress ≠ .releaseWrite) := by
  intro cancelled lockOk mgrSome
  cases cancelled <;> cases lockOk <;> cases mgrSome <;>
    exact ⟨by decide, by decide⟩

/-- Witness for C9: the successful (uncancelled, lock acquired, manager
present) execution writes Completed at index 6, with the lock depth back
to 0 and both the drain and the release strictly before it. -/
theorem run_search_task_completion_discipline_witness :
    lockDepth ((run_search_task_trace false true true).take 6) = 0 ∧
    (∃ j, j < 6 ∧ (run_search_task_trace false true true).getD j
      .writeProgress = .drainResults) ∧
    (∃ k, k < 6 ∧ (run_search_task_trace false true true).getD k
      .writeProgress = .releaseWrite) :=
  (run_search_task_completion_discipline false true true).1 6
    (by decide) (by decide)

/-! ## Group refine with DFS (group_search.rs, refine_search_group_with_dfs)

The memory-read step is a parameter: addrValues is the list of
(address, read bytes) pairs for which read_memory_unified succeeded, in
the order of the existing results. Arithmetic on u64 addresses is Nat
with saturating subtraction as Nat subtraction and the wrapping add
anchor + range reduced mod 2^64. An emitted assignment is modelled as
the chosen list the source holds when it reaches a full match; the
source inserts exactly the pairs of each emitted assignment into the
result set. -/

/-- Lower end of the candidate window around an anchor (source: the
min_addr of the per-anchor match in refine_search_group_with_dfs). -/
def refineWindowLo (q : SearchQuery) (anchor : Nat) : Nat :=
  match q.mode with
  | .Unordered => anchor - q.range
  | .Ordered => anchor

/-- Upper end of the candidate window around an anchor (source: the
max_addr of the per-anchor match; u64 wrapping add). -/
def refineWindowHi (q : SearchQuery) (anchor : Nat) : Nat :=
  (anchor + q.range) % (2 ^ 64)

/-- Backtracking DFS over the candidate list (source: the nested fn dfs
of refine_search_group_with_dfs), returning every complete assignment:
vals are the query values still to match, cands the candidate suffix
available at this depth, used the addresses taken so far, chosen the
partial assignment. Iterating i over the candidate indices and recursing
from i + 1 is modelled by mapping over the suffixes of cands. -/
def dfsRefine (fs : FloatSem) :
    List SearchValue → List (Nat × List Nat) → List Nat →
    List (Nat × ValueType) → List (List (Nat × ValueType))
  | [], _, _, chosen => [chosen]
  | sv :: restVals, cands, used, chosen =>
      if cands.length < restVals.length + 1 then []
      else
        (cands.tails.map (fun t =>
          match t with
          | [] => []
          | (addr, bytes) :: rest =>
              if sv.valueType.size ≤ bytes.length ∧
                  sv.matched fs bytes = some true ∧ ¬ addr ∈ used then
                dfsRefine fs restVals rest (addr :: used)
                  (chosen ++ [(addr, sv.valueType)])
              else [])).flatten

/-- Group refine (source: refine_search_group_with_dfs): anchors are the
readable addresses whose bytes match query.values[0]; a single-value
query emits each anchor alone; otherwise each anchor gets the candidate
window, the count prune, and the DFS seeded with the anchor chosen and
used. -/
def refine_search_group_with_dfs (fs : FloatSem) (q : SearchQuery)
    (addrValues : List (Nat × List Nat)) :
    List (List (Nat × ValueType)) :=
  match q.values with
  | [] => []
  | v0 :: restVals =>
      let anchors := (addrValues.filter
        (fun av => decide (v0.matched fs av.2 = some true))).map Prod.fst
      match restVals with
      | [] => anchors.map (fun a => [(a, v0.valueType)])
      | _ :: _ =>
          anchors.flatMap (fun anchor =>
            let candidates := addrValues.filter (fun av =>
              decide (refineWindowLo q anchor ≤ av.1 ∧
                av.1 ≤ refineWindowHi q anchor ∧ av.1 ≠ anchor))
            if candidates.length < q.values.length - 1 then []
            else dfsRefine fs restVals candidates [anchor]
              [(anchor, v0.valueType)])

theorem dfsRefine_sound (fs : FloatSem) :
    ∀ (vals : List SearchValue) (cands : List (Nat × List Nat))
      (used : List Nat) (chosen : List (Nat × ValueType)),
      ∀ A ∈ dfsRefine fs vals cands used chosen,
        ∃ ext, A = chosen ++ ext ∧ ext.length = vals.length ∧
          (∀ idx, idx < ext.length →
            (ext.getD idx (0, ValueType.Byte)).2
              = (vals.getD idx (SearchValue.FixedInt []
                  .Byte)).valueType ∧
            ∃ b, ((ext.getD idx (0, ValueType.Byte)).1, b) ∈ cands ∧
              (vals.getD idx (SearchValue.FixedInt [] .Byte)).matched
                fs b = some true) ∧
          (ext.map Prod.fst).Nodup ∧
          ∀ a ∈ ext.map Prod.fst, a ∉ used := by
  intro vals
  induction vals with
  | nil =>
      intro cands used chosen A hA
      simp only [dfsRefine, List.mem_singleton] at hA
      exact ⟨[], by simp [hA]⟩
  | cons sv restVals ih =>
      intro cands used chosen A hA
      simp only [dfsRefine] at hA
      split at hA
      · simp at hA
      · rw [List.mem_flatten] at hA
        obtain ⟨l, hl, hAl⟩ := hA
        rw [List.mem_map] at hl
        obtain ⟨t, ht, rfl⟩ := hl
        rcases t with _ | ⟨⟨addr, bytes⟩, rest⟩
        · simp at hAl
        · simp only [] at hAl
          split at hAl
          case isFalse => simp at hAl
          case isTrue hcond =>
            obtain ⟨hsz, hmatch, hnotused⟩ := hcond
            obtain ⟨ext', hA', hlen', hprops', hnodup', hused'⟩ :=
              ih rest (addr :: used) (chosen ++ [(addr, sv.valueType)])
                A hAl
            have hsuffix : (addr, bytes) :: rest <:+ cands :=
              (List.mem_tails _ _).mp ht
            have hsubset : ((addr, bytes) :: rest) ⊆ cands :=
              hsuffix.subset
            refine ⟨(addr, sv.valueType) :: ext', ?_, ?_, ?_, ?_, ?_⟩
            · rw [hA', List.append_assoc]
              rfl
            · simp [hlen']
            · intro idx hidx
              cases idx with
              | zero =>
                  refine ⟨rfl, bytes, hsubset (List.mem_cons_self _ _),
                    hmatch⟩
              | succ j =>
                  have hj : j < ext'.length := by
                    simpa using hidx
                  obtain ⟨hvt, b, hb, hbm⟩ := hprops' j hj
                  refine ⟨hvt, b,
                    hsubset (List.mem_cons_of_mem _ hb), hbm⟩
            · rw [List.map_cons, List.nodup_cons]
              refine ⟨?_, hnodup'⟩
              intro hmem
              exact (hused' addr hmem) (List.mem_cons_self _ _)
            · intro a ha
              rw [List.map_cons, List.mem_cons] at ha
              rcases ha with rfl | ha
              · exact hnotused
              · intro hu
                exact (hused' a ha) (List.mem_cons_of_mem _ hu)

/-- C7: with at least two query values, every assignment emitted by the
refine DFS has exactly one address per query value; its addresses are
pairwise distinct; its first entry is an anchor whose read bytes match
query.values[0], typed with that value's type; and each later entry is a
readable address distinct from the anchor whose bytes match the
corresponding query value, typed with that value's type, lying in
[anchor - range, anchor + range] for Unordered mode and in
[anchor, anchor + range] for Ordered mode. -/
theorem refine_dfs_assignment_soundness (fs : FloatSem) (q : SearchQuery)
    (addrValues : List (Nat × List Nat)) (hk : 2 ≤ q.values.length) :
    ∀ A ∈ refine_search_group_with_dfs fs q addrValues,
      A.length = q.values.length ∧
      (A.map Prod.fst).Nodup ∧
      ∃ anchor,
        A.getD 0 (0, ValueType.Byte)
          = (anchor, (q.values.getD 0 (SearchValue.FixedInt []
              .Byte)).valueType) ∧
        (∃ b, (anchor, b) ∈ addrValues ∧
          (q.values.getD 0 (SearchValue.FixedInt [] .Byte)).matched fs b
            = some true) ∧
        ∀ idx, 1 ≤ idx → idx < A.length →
          (A.getD idx (0, ValueType.Byte)).2
            = (q.values.getD idx (SearchValue.FixedInt []
                .Byte)).valueType ∧
          (∃ b, ((A.getD idx (0, ValueType.Byte)).1, b) ∈ addrValues ∧
            (q.values.getD idx (SearchValue.FixedInt [] .Byte)).matched
              fs b = some true) ∧
          refineWindowLo q anchor ≤ (A.getD idx (0, ValueType.Byte)).1 ∧
          (A.getD idx (0, ValueType.Byte)).1 ≤ refineWindowHi q anchor ∧
          (A.getD idx (0, ValueType.Byte)).1 ≠ anchor := by
  intro A hA
  match hv : q.values, hk with
  | v0 :: v1 :: restRest, _ =>
    rw [refine_search_group_with_dfs] at hA
    simp only [hv] at hA
    rw [List.mem_flatMap] at hA
    obtain ⟨anchor, hanch, hA⟩ := hA
    split at hA
    · simp at hA
    · obtain ⟨ext, hAeq, hlen, hprops, hnodup, hused⟩ :=
        dfsRefine_sound fs (v1 :: restRest) _ [anchor]
          [(anchor, v0.valueType)] A hA
      rw [List.singleton_append] at hAeq
      subst hAeq
      rw [List.mem_map] at hanch
      obtain ⟨av, havf, hava⟩ := hanch
      rw [List.mem_filter] at havf
      obtain ⟨havmem, havdec⟩ := havf
      have havm : v0.matched fs av.2 = some true := of_decide_eq_true havdec
      refine ⟨?_, ?_, anchor, ?_, ?_, ?_⟩
      · simp [hv, hlen]
      · rw [List.map_cons, List.nodup_cons]
        refine ⟨?_, hnodup⟩
        intro hmem
        exact (hused anchor hmem) (List.mem_cons_self _ _)
      · simp [hv]
      · exact ⟨av.2, by rw [← hava]; exact havmem, by simpa using havm⟩
      · intro idx h1 h2
        cases idx with
        | zero => exact absurd h1 (by decide)
        | succ j =>
            have hj : j < ext.length := by
              simp only [List.length_cons] at h2
              omega
            obtain ⟨hvt, b, hb, hbm⟩ := hprops j hj
            rw [List.mem_filter] at hb
            obtain ⟨hbmem, hbdec⟩ := hb
            have hwin := of_decide_eq_true hbdec
            refine ⟨?_, ⟨b, hbmem, ?_⟩, hwin.1, hwin.2.1, hwin.2.2⟩
            · simpa using hvt
            · simpa using hbm

/-- Witness for C7: refining the readable pairs (100, bytes 0) and
(102, bytes 1) with the Unordered two-value query [Byte in 0..10, Byte
in 0..10] of range 4 emits the assignment [(100, Byte), (102, Byte)],
which indeed has one address per query value. -/
theorem refine_dfs_assignment_soundness_witness :
    ([((100 : Nat), ValueType.Byte), (102, ValueType.Byte)]).length
      = (SearchQuery.mk [SearchValue.RangeInt 0 10 .Byte false,
          SearchValue.RangeInt 0 10 .Byte false] .Unordered 4).values.length :=
  (refine_dfs_assignment_soundness trivFloatSem
    ⟨[SearchValue.RangeInt 0 10 .Byte false,
      SearchValue.RangeInt 0 10 .Byte false], .Unordered, 4⟩
    [(100, [0]), (102, [1])] (by decide)
    [(100, ValueType.Byte), (102, ValueType.Byte)] (by decide)).1

/-! ## B+ tree map (bplustree/src/map.rs)

Keys are Nat (the tree is used with Ord keys; ValuePair orders by
address). The pointer structure of node.rs is modelled as a functional
tree: leaves hold the key-value entries, internal nodes hold keys and
children. All leaves of a B+ tree sit at the same depth (splits add a
level only at the root, the root collapse removes one), so the map
carries that depth as a height field and the operations recurse on it;
the source's bottom-up split and underflow handling through parent
pointers becomes the equivalent top-down recursion that rebalances a
child from its parent. binary_search(&key) mapping Ok(i) to i+1 and
Err(i) to i on a sorted duplicate-free key list equals the count of keys
at most key, and the insertion position Ok(i)/Err(i) to i equals the
count of keys strictly below key. -/

/-- Tree node (source: enum TreeNode with LeafNode and InternalNode of
node.rs; parent and leaf-chain pointers are representation sharing and
have no functional content). -/
inductive BTree (V : Type) where
  | leaf (entries : List (Nat × V))
  | node (keys : List Nat) (children : List (BTree V))

/-- Map state (source: struct BPlusTreeMap: root, order, length; head is
derivable leaf-chain sharing). height is the number of internal levels
above the leaves, used as the recursion depth. -/
structure BPlusTreeMap (V : Type) where
  root : Option (BTree V)
  order : Nat
  length : Nat
  height : Nat

/-- Child position for navigation (source: binary_search with Ok(i)
mapped to i+1 and Err(i) to i). -/
def childIndex (keys : List Nat) (k : Nat) : Nat :=
  keys.countP (fun x => decide (x ≤ k))

/-- Key insertion position in a parent (source: binary_search with both
Ok(i) and Err(i) mapped to i in insert_into_parent). -/
def sepIndex (keys : List Nat) (k : Nat) : Nat :=
  keys.countP (fun x => decide (x < k))

/-- Minimum keys of a non-root leaf (source: min_keys_for_leaf). -/
def min_keys_for_leaf (order : Nat) : Nat := (order + 1) / 2

/-- Minimum keys of a non-root internal node (source:
min_keys_for_internal). -/
def min_keys_for_internal (order : Nat) : Nat := order / 2

/-- Minimum keys of a non-root node at a given height. -/
def minAt (order : Nat) : Nat → Nat
  | 0 => min_keys_for_leaf order
  | _ + 1 => min_keys_for_internal order

/-- Key count of the top node of a tree (leaf.len / internal.len). -/
def topCount : BTree V → Nat
  | .leaf entries => entries.length
  | .node keys _ => keys.length

/-- Entry list of a leaf. -/
def entriesOf : BTree V → List (Nat × V)
  | .leaf entries => entries
  | .node _ _ => []

/-- Key list of an internal node. -/
def keysOf : BTree V → List Nat
  | .leaf _ => []
  | .node keys _ => keys

/-- Children of an internal node. -/
def childrenOf : BTree V → List (BTree V)
  | .leaf _ => []
  | .node _ children => children

/-- Sorted insert-or-replace into a leaf's entry list (source: the
binary_search in insert: Ok replaces the value in place, Err inserts at
the insertion point); the flag is true when a new entry was added. -/
def insertEntry (k : Nat) (v : V) : List (Nat × V) → List (Nat × V) × Bool
  | [] => ([(k, v)], true)
  | e :: rest =>
      if k < e.1 then ((k, v) :: e :: rest, true)
      else if k = e.1 then ((k, v) :: rest, false)
      else
        let r := insertEntry k v rest
        (e :: r.1, r.2)

/-- Remove the entry with the given key from a leaf's entry list
(source: binary_search then keys.remove/vals.remove in remove); the flag
is true when the key was present. -/
def removeEntry (k : Nat) : List (Nat × V) → List (Nat × V) × Bool
  | [] => ([], false)
  | e :: rest =>
      if e.1 = k then (rest, true)
      else
        let r := removeEntry k rest
        (e :: r.1, r.2)

/-- Result of an insertion below the root: the subtree fit in place, or
it split into left and right with a separator key promoted to the
parent (source: the leaf split in insert and the recursive
insert_into_parent, turned top-down). -/
inductive InsertResult (V : Type) where
  | one (t : BTree V)
  | split (left : BTree V) (sep : Nat) (right : BTree V)

/-- Insert below the root (source: the descent of insert, the leaf
split with midpoint len/2 whose promoted key keys[midpoint] stays first
in the right leaf, and insert_into_parent's internal split with
midpoint len/2 whose promoted key keys[midpoint] is removed); the flag
is true when a new key was added. -/
def insertIn (order k : Nat) (v : V) :
    Nat → BTree V → InsertResult V × Bool
  | _, .leaf entries =>
      let r := insertEntry k v entries
      let entries2 := r.1
      if order < entries2.length then
        let mid := entries2.length / 2
        (.split (.leaf (entries2.take mid))
          (entries2.getD mid (0, v)).1
          (.leaf (entries2.drop mid)), r.2)
      else (.one (.leaf entries2), r.2)
  | 0, .node keys children => (.one (.node keys children), false)
  | h + 1, .node keys children =>
      let i := childIndex keys k
      let res := insertIn order k v h (children.getD i (.leaf []))
      match res.1 with
      | .one c => (.one (.node keys (children.set i c)), res.2)
      | .split l sep r =>
          let pos := sepIndex keys sep
          let newKeys := keys.insertIdx pos sep
          let newChildren := (children.set i l).insertIdx (pos + 1) r
          if order < newKeys.length then
            let mid := newKeys.length / 2
            (.split (.node (newKeys.take mid) (newChildren.take (mid + 1)))
              (newKeys.getD mid 0)
              (.node (newKeys.drop (mid + 1)) (newChildren.drop (mid + 1))),
              res.2)
          else (.one (.node newKeys newChildren), res.2)

/-- Insert (source: BPlusTreeMap::insert: empty tree creates a root
leaf; a root split creates a new root with one key and two children). -/
def BPlusTreeMap.insert (m : BPlusTreeMap V) (k : Nat) (v : V) :
    BPlusTreeMap V :=
  match m.root with
  | none => { m with root := some (.leaf [(k, v)]), length := 1, height := 0 }
  | some r =>
      let res := insertIn m.order k v m.height r
      let added := if res.2 then 1 else 0
      match res.1 with
      | .one t => { m with root := some t, length := m.length + added }
      | .split l sep rgt =>
          { m with root := some (.node [sep] [l, rgt]),
                   length := m.length + added, height := m.height + 1 }

/-- Parent-side underflow handling for a leaf child at position i
(source: handle_underflow_leaf and borrow_from_left_leaf,
borrow_from_right_leaf, merge_with_left_leaf, merge_with_right_leaf):
borrow from a left sibling with more than the minimum, else from such a
right sibling, else merge into the left sibling if one exists, else
with the right. Returns the parent's updated keys and children. -/
def handle_underflow_leaf (order : Nat) (keys : List Nat)
    (children : List (BTree V)) (i : Nat) :
    List Nat × List (BTree V) :=
  let ce := entriesOf (children.getD i (.leaf []))
  let le := entriesOf (children.getD (i - 1) (.leaf []))
  let re := entriesOf (children.getD (i + 1) (.leaf []))
  if 0 < i ∧ min_keys_for_leaf order < le.length then
    (keys.set (i - 1) ((le.map Prod.fst).getD (le.length - 1) 0),
     (children.set (i - 1) (.leaf (le.take (le.length - 1)))).set i
       (.leaf (le.drop (le.length - 1) ++ ce)))
  else if i < children.length - 1 ∧ min_keys_for_leaf order < re.length
  then
    (keys.set i ((re.map Prod.fst).getD 1 0),
     (children.set i (.leaf (ce ++ re.take 1))).set (i + 1)
       (.leaf (re.drop 1)))
  else if 0 < i then
    (keys.eraseIdx (i - 1),
     (children.set (i - 1) (.leaf (le ++ ce))).eraseIdx i)
  else
    (keys.eraseIdx i,
     (children.set i (.leaf (ce ++ re))).eraseIdx (i + 1))

/-- Parent-side underflow handling for an internal child at position i
(source: handle_underflow_internal and borrow_from_left_internal,
borrow_from_right_internal, merge_with_left_internal,
merge_with_right_internal): a borrow rotates the separator key through
the parent and moves one child; a merge pulls the separator down
between the two key lists and concatenates the children. -/
def handle_underflow_internal (order : Nat) (keys : List Nat)
    (children : List (BTree V)) (i : Nat) :
    List Nat × List (BTree V) :=
  let cn := children.getD i (.leaf [])
  let ln := children.getD (i - 1) (.leaf [])
  let rn := children.getD (i + 1) (.leaf [])
  if 0 < i ∧ min_keys_for_internal order < (keysOf ln).length then
    let lk := keysOf ln
    let lc := childrenOf ln
    (keys.set (i - 1) (lk.getD (lk.length - 1) 0),
     (children.set (i - 1)
        (.node (lk.take (lk.length - 1)) (lc.take (lc.length - 1)))).set
       i (.node (keys.getD (i - 1) 0 :: keysOf cn)
            (lc.drop (lc.length - 1) ++ childrenOf cn)))
  else if i < children.length - 1 ∧
      min_keys_for_internal order < (keysOf rn).length then
    let rk := keysOf rn
    let rc := childrenOf rn
    (keys.set i (rk.getD 0 0),
     (children.set i (.node (keysOf cn ++ [keys.getD i 0])
        (childrenOf cn ++ rc.take 1))).set (i + 1)
       (.node (rk.drop 1) (rc.drop 1)))
  else if 0 < i then
    (keys.eraseIdx (i - 1),
     (children.set (i - 1)
        (.node (keysOf ln ++ keys.getD (i - 1) 0 :: keysOf cn)
          (childrenOf ln ++ childrenOf cn))).eraseIdx i)
  else
    (keys.eraseIdx i,
     (children.set i
        (.node (keysOf cn ++ keys.getD i 0 :: keysOf rn)
          (childrenOf cn ++ childrenOf rn))).eraseIdx (i + 1))

/-- Remove below the root (source: the find_leaf descent of remove, the
leaf key removal, and the upward underflow cascade turned top-down: a
parent checks its updated child against the height-appropriate minimum
and rebalances when it underflows); the flag is true when the key was
found. -/
def removeIn (order k : Nat) : Nat → BTree V → BTree V × Bool
  | _, .leaf entries =>
      let r := removeEntry k entries
      (.leaf r.1, r.2)
  | 0, .node keys children => (.node keys children, false)
  | h + 1, .node keys children =>
      let i := childIndex keys k
      let res := removeIn order k h (children.getD i (.leaf []))
      let children2 := children.set i res.1
      let kc :=
        if topCount res.1 < minAt order h then
          match h with
          | 0 => handle_underflow_leaf order keys children2 i
          | _ + 1 => handle_underflow_internal order keys children2 i
        else (keys, children2)
      (.node kc.1 kc.2, res.2)

/-- Remove (source: BPlusTreeMap::remove: an emptied root leaf empties
the tree; a root left with zero keys and a single child is collapsed to
that child). -/
def BPlusTreeMap.remove (m : BPlusTreeMap V) (k : Nat) :
    BPlusTreeMap V :=
  match m.root with
  | none => m
  | some r =>
      let res := removeIn m.order k m.height r
      let removed := if res.2 then 1 else 0
      match res.1 with
      | .leaf [] => { m with root := none, length := m.length - removed, height := 0 }
      | .node [] [c] =>
          { m with root := some c, length := m.length - removed, height := m.height - 1 }
      | t => { m with root := some t, length := m.length - removed }

/-- Empty map (source: BPlusTreeMap::new; the order-at-least-3
assertion is a hypothesis of the theorems). -/
def BPlusTreeMap.new (V : Type) (order : Nat) : BPlusTreeMap V :=
  ⟨none, order, 0, 0⟩

/-- Node-occupancy well-formedness at height h with an explicit lower
bound lo for the top node: the top node has between lo and order keys,
an internal node has one more child than keys, and every child is
well-formed for its height with the height-appropriate non-root
minimum. -/
def WFtop (order : Nat) : Nat → Nat → BTree V → Bool
  | 0, lo, .leaf entries =>
      decide (lo ≤ entries.length ∧ entries.length ≤ order)
  | 0, _, .node _ _ => false
  | h + 1, lo, .node keys children =>
      decide (lo ≤ keys.length ∧ keys.length ≤ order ∧
        children.length = keys.length + 1) &&
      children.all (fun c => WFtop order h (minAt order h) c)
  | _ + 1, _, .leaf _ => false

/-- Map well-formedness: order at least 3 and, when nonempty, the root
well-formed at the recorded height with root minimum 1. -/
def MapWF (m : BPlusTreeMap V) : Prop :=
  3 ≤ m.order ∧
  match m.root with
  | none => True
  | some r => WFtop m.order m.height 1 r = true

/-- One map operation. -/
inductive MapOp (V : Type) where
  | ins (k : Nat) (v : V)
  | del (k : Nat)

/-- Apply a sequence of operations. -/
def applyOps (m : BPlusTreeMap V) : List (MapOp V) → BPlusTreeMap V
  | [] => m
  | op :: rest =>
      applyOps (match op with
        | .ins k v => m.insert k v
        | .del k => m.remove k) rest

/-- The leaf minimum the claim asserts: ceil((order + 1) / 2). -/
def claimMinLeaf (order : Nat) : Nat := (order + 1 + 1) / 2

/-- Counterexample to C2 as stated: in an order-4 tree, inserting
1..5 splits the root leaf at midpoint 5 / 2 = 2, leaving a non-root
leaf with 2 keys, below the claimed minimum ceil((4+1)/2) = 3. The
maintained bound is floor((order+1)/2) = 2. -/
theorem bptree_claim_counterexample :
    (applyOps (BPlusTreeMap.new Nat 4)
        [.ins 1 0, .ins 2 0, .ins 3 0, .ins 4 0, .ins 5 0]).root
      = some (.node [3] [.leaf [(1, 0), (2, 0)],
          .leaf [(3, 0), (4, 0), (5, 0)]]) ∧
    ([((1 : Nat), (0 : Nat)), (2, 0)].length < claimMinLeaf 4 ∧
      min_keys_for_leaf 4 ≤ [((1 : Nat), (0 : Nat)), (2, 0)].length) :=
  ⟨rfl, by decide⟩

/-! ### List helper lemmas for the occupancy proof -/

theorem getD_set_self {l : List α} {i : Nat} (a d : α)
    (h : i < l.length) : (l.set i a).getD i d = a := by
  rw [List.getD_eq_getElem _ _ (by simpa using h)]
  exact List.getElem_set_self _

theorem getD_set_ne {l : List α} {i j : Nat} (a d : α) (hne : i ≠ j) :
    (l.set i a).getD j d = l.getD j d := by
  by_cases hj : j < l.length
  · rw [List.getD_eq_getElem _ _ (by simpa using hj),
      List.getD_eq_getElem _ _ hj]
    exact List.getElem_set_ne hne _
  · rw [List.getD_eq_default _ _ (by simpa using Nat.le_of_not_lt hj),
      List.getD_eq_default _ _ (Nat.le_of_not_lt hj)]

theorem all_mem_set {P : α → Prop} {l : List α} {n : Nat} {a : α}
    (hl : ∀ c ∈ l, P c) (ha : P a) : ∀ c ∈ l.set n a, P c :=
  fun c hc => (List.mem_or_eq_of_mem_set hc).elim (hl c) (fun h => h ▸ ha)

theorem all_mem_eraseIdx {P : α → Prop} {l : List α} {n : Nat}
    (hl : ∀ c ∈ l, P c) : ∀ c ∈ l.eraseIdx n, P c :=
  fun c hc => hl c (List.eraseIdx_subset _ _ hc)

theorem all_mem_insertIdx {P : α → Prop} {l : List α} {n : Nat} {a : α}
    (hn : n ≤ l.length) (hl : ∀ c ∈ l, P c) (ha : P a) :
    ∀ c ∈ l.insertIdx n a, P c := by
  intro c hc
  rcases (List.mem_insertIdx hn).mp hc with h | h
  · exact h ▸ ha
  · exact hl c h

theorem getD_mem {l : List α} {i : Nat} (d : α) (h : i < l.length) :
    l.getD i d ∈ l := by
  rw [List.getD_eq_getElem _ _ h]
  exact List.getElem_mem h

/-! ### WFtop structure lemmas -/

theorem WFtop_zero (order lo : Nat) (t : BTree V) :
    WFtop order 0 lo t = true ↔
      t = .leaf (entriesOf t) ∧ lo ≤ (entriesOf t).length ∧
        (entriesOf t).length ≤ order := by
  cases t <;> simp [WFtop, entriesOf]

theorem WFtop_succ (order lo h : Nat) (t : BTree V) :
    WFtop order (h + 1) lo t = true ↔
      t = .node (keysOf t) (childrenOf t) ∧
      lo ≤ (keysOf t).length ∧ (keysOf t).length ≤ order ∧
      (childrenOf t).length = (keysOf t).length + 1 ∧
      ∀ c ∈ childrenOf t, WFtop order h (minAt order h) c = true := by
  cases t <;>
    simp [WFtop, keysOf, childrenOf, List.all_eq_true, and_assoc]

theorem WFtop_count {order lo h : Nat} {t : BTree V}
    (hwf : WFtop order h lo t = true) : lo ≤ topCount t := by
  cases h with
  | zero =>
      obtain ⟨ht, h1, _⟩ := (WFtop_zero order lo t).mp hwf
      rw [ht]
      exact h1
  | succ g =>
      obtain ⟨ht, h1, _⟩ := (WFtop_succ order lo g t).mp hwf
      rw [ht]
      exact h1

theorem WFtop_adjust {order lo lo' h : Nat} {t : BTree V}
    (hwf : WFtop order h lo t = true) (hlo : lo' ≤ topCount t) :
    WFtop order h lo' t = true := by
  cases h with
  | zero =>
      obtain ⟨ht, _, h2⟩ := (WFtop_zero order lo t).mp hwf
      rw [WFtop_zero]
      refine ⟨ht, ?_, h2⟩
      rw [ht] at hlo
      exact hlo
  | succ g =>
      obtain ⟨ht, _, h2, h3, h4⟩ := (WFtop_succ order lo g t).mp hwf
      rw [WFtop_succ]
      refine ⟨ht, ?_, h2, h3, h4⟩
      rw [ht] at hlo
      exact hlo

theorem WFtop_mono {order lo lo' h : Nat} {t : BTree V} (hle : lo' ≤ lo)
    (hwf : WFtop order h lo t = true) : WFtop order h lo' t = true :=
  WFtop_adjust hwf (le_trans hle (WFtop_count hwf))

theorem minAt_pos {order : Nat} (h3 : 3 ≤ order) (h : Nat) :
    1 ≤ minAt order h := by
  cases h <;> simp [minAt, min_keys_for_leaf, min_keys_for_internal] <;>
    omega

theorem childIndex_le (keys : List Nat) (k : Nat) :
    childIndex keys k ≤ keys.length :=
  List.countP_le_length _

theorem sepIndex_le (keys : List Nat) (k : Nat) :
    sepIndex keys k ≤ keys.length :=
  List.countP_le_length _

theorem insertEntry_length (k : Nat) (v : V) :
    ∀ l : List (Nat × V), l.length ≤ (insertEntry k v l).1.length ∧
      (insertEntry k v l).1.length ≤ l.length + 1 := by
  intro l
  induction l with
  | nil => simp [insertEntry]
  | cons e rest ih =>
      simp only [insertEntry]
      split
      · simp
      · split
        · simp
        · simpa using ih

theorem insertIn_wf (order k : Nat) (v : V) (h3 : 3 ≤ order) :
    ∀ (h : Nat) (t : BTree V) (lo : Nat), WFtop order h lo t = true →
      (match (insertIn order k v h t).1 with
       | .one t' => WFtop order h lo t' = true
       | .split l _ r => WFtop order h (minAt order h) l = true ∧
           WFtop order h (minAt order h) r = true) := by
  intro h
  induction h with
  | zero =>
      intro t lo hwf
      cases t with
      | node keys children => simp [WFtop] at hwf
      | leaf entries =>
          simp only [WFtop, decide_eq_true_eq] at hwf
          obtain ⟨h1, h2⟩ := hwf
          have hlen := insertEntry_length k v entries
          by_cases hover : order < (insertEntry k v entries).1.length
          · have he2 : (insertEntry k v entries).1.length = order + 1 := by
              omega
            simp only [insertIn, if_pos hover]
            refine ⟨?_, ?_⟩
            · simp only [WFtop, decide_eq_true_eq, List.length_take,
                he2, minAt, min_keys_for_leaf]
              omega
            · simp only [WFtop, decide_eq_true_eq, List.length_drop,
                he2, minAt, min_keys_for_leaf]
              omega
          · simp only [insertIn, if_neg hover]
            show WFtop order 0 lo (.leaf (insertEntry k v entries).1)
              = true
            simp only [WFtop, decide_eq_true_eq]
            omega
  | succ g ih =>
      intro t lo hwf
      cases t with
      | leaf entries => simp [WFtop] at hwf
      | node keys children =>
          simp only [WFtop, Bool.and_eq_true, decide_eq_true_eq,
            List.all_eq_true] at hwf
          obtain ⟨⟨h1, h2, h3⟩, h4⟩ := hwf
          have hile : childIndex keys k ≤ keys.length :=
            childIndex_le keys k
          have hilt : childIndex keys k < children.length := by omega
          have hchildwf :=
            h4 _ (getD_mem (BTree.leaf ([] : List (Nat × V))) hilt)
          have hres := ih (children.getD (childIndex keys k) (.leaf []))
            (minAt order g) hchildwf
          cases hres1 : (insertIn order k v g
              (children.getD (childIndex keys k) (.leaf []))).1 with
          | one c =>
              simp only [hres1] at hres
              simp only [insertIn, hres1]
              show WFtop order (g + 1) lo
                (.node keys (children.set (childIndex keys k) c)) = true
              simp only [WFtop, Bool.and_eq_true, decide_eq_true_eq,
                List.all_eq_true, List.length_set]
              exact ⟨⟨h1, h2, h3⟩, all_mem_set h4 hres⟩
          | split l sep r =>
              simp only [hres1] at hres
              have hpos : sepIndex keys sep ≤ keys.length :=
                sepIndex_le keys sep
              have hkeyslen :
                  (keys.insertIdx (sepIndex keys sep) sep).length
                    = keys.length + 1 :=
                List.length_insertIdx _ _ hpos
              have hposc : sepIndex keys sep + 1 ≤
                  (children.set (childIndex keys k) l).length := by
                simp only [List.length_set]
                omega
              have hchildlen :
                  ((children.set (childIndex keys k) l).insertIdx
                    (sepIndex keys sep + 1) r).length
                    = children.length + 1 := by
                rw [List.length_insertIdx _ _ hposc, List.length_set]
              have hallnew : ∀ c ∈ (children.set (childIndex keys k)
                  l).insertIdx (sepIndex keys sep + 1) r,
                  WFtop order g (minAt order g) c = true :=
                all_mem_insertIdx hposc (all_mem_set h4 hres.1) hres.2
              simp only [insertIn, hres1]
              by_cases hover : order <
                  (keys.insertIdx (sepIndex keys sep) sep).length
              · have hk : keys.length = order := by
                  rw [hkeyslen] at hover
                  omega
                simp only [if_pos hover]
                refine ⟨?_, ?_⟩
                · simp only [WFtop, Bool.and_eq_true,
                    decide_eq_true_eq, List.all_eq_true,
                    List.length_take, hkeyslen, hchildlen, minAt,
                    min_keys_for_internal, hk, h3]
                  refine ⟨by omega, ?_⟩
                  intro c hc
                  exact hallnew c (List.take_subset _ _ hc)
                · simp only [WFtop, Bool.and_eq_true,
                    decide_eq_true_eq, List.all_eq_true,
                    List.length_drop, hkeyslen, hchildlen, minAt,
                    min_keys_for_internal, hk, h3]
                  refine ⟨by omega, ?_⟩
                  intro c hc
                  exact hallnew c (List.drop_subset _ _ hc)
              · simp only [if_neg hover]
                rw [hkeyslen] at hover
                show WFtop order (g + 1) lo (.node
                  (keys.insertIdx (sepIndex keys sep) sep)
                  ((children.set (childIndex keys k) l).insertIdx
                    (sepIndex keys sep + 1) r)) = true
                simp only [WFtop, Bool.and_eq_true, decide_eq_true_eq,
                  List.all_eq_true, hkeyslen, hchildlen]
                exact ⟨⟨by omega, by omega, by omega⟩, hallnew⟩

theorem eraseIdx_set_self (a : α) :
    ∀ (l : List α) (i : Nat), (l.set i a).eraseIdx i = l.eraseIdx i := by
  intro l
  induction l with
  | nil => intro i; rfl
  | cons x xs ih =>
      intro i
      cases i with
      | zero => rfl
      | succ j => simp only [List.set_cons_succ, List.eraseIdx_cons_succ,
          ih]

theorem underflow_leaf_wf (order : Nat) (h3 : 3 ≤ order)
    (keys : List Nat) (children : List (BTree V)) (c' : BTree V)
    (i lo : Nat) (hlo : 1 ≤ lo)
    (h1 : lo ≤ keys.length) (h2 : keys.length ≤ order)
    (hcl : children.length = keys.length + 1)
    (hilt : i < children.length)
    (h4 : ∀ c ∈ children, WFtop order 0 (minAt order 0) c = true)
    (hc' : WFtop order 0 (min_keys_for_leaf order - 1) c' = true)
    (hcnt : topCount c' = min_keys_for_leaf order - 1) :
    WFtop order 1 (lo - 1)
      (.node (handle_underflow_leaf order keys (children.set i c') i).1
        (handle_underflow_leaf order keys (children.set i c') i).2)
      = true := by
  have hmL : min_keys_for_leaf order = (order + 1) / 2 := rfl
  have hmA : minAt order 0 = min_keys_for_leaf order := rfl
  obtain ⟨hcsh, hclo, hchi⟩ := (WFtop_zero order _ c').mp hc'
  have hcelen : (entriesOf c').length = min_keys_for_leaf order - 1 := by
    rw [hcsh] at hcnt
    simpa [topCount] using hcnt
  have hgetDi : (children.set i c').getD i (.leaf []) = c' :=
    getD_set_self _ _ hilt
  simp only [handle_underflow_leaf, hgetDi]
  by_cases hb1 : 0 < i ∧ min_keys_for_leaf order <
      (entriesOf ((children.set i c').getD (i - 1) (.leaf []))).length
  · obtain ⟨hipos, hblen⟩ := hb1
    have e_im : (children.set i c').getD (i - 1) (.leaf [])
        = children.getD (i - 1) (.leaf []) :=
      getD_set_ne _ _ (by omega)
    rw [e_im] at hblen
    have hlwf := h4 _ (getD_mem (BTree.leaf ([] : List (Nat × V)))
      (by omega : i - 1 < children.length))
    obtain ⟨hlsh, hllo, hlhi⟩ := (WFtop_zero order _ _).mp hlwf
    rw [hmA] at hllo
    rw [if_pos ⟨hipos, by rw [e_im]; exact hblen⟩, e_im]
    rw [List.set_comm _ _ _ (by omega : i ≠ i - 1), List.set_set]
    simp only [WFtop, Bool.and_eq_true, decide_eq_true_eq,
      List.all_eq_true, List.length_set]
    refine ⟨⟨by omega, by omega, by omega⟩, ?_⟩
    refine all_mem_set (all_mem_set h4 ?_) ?_
    · simp only [WFtop, decide_eq_true_eq, List.length_take, hmA]
      omega
    · simp only [WFtop, decide_eq_true_eq, List.length_append,
        List.length_drop, hmA]
      omega
  · by_cases hb2 : i < (children.set i c').length - 1 ∧
        min_keys_for_leaf order <
          (entriesOf ((children.set i c').getD (i + 1)
            (.leaf []))).length
    · obtain ⟨hilt2, hblen⟩ := hb2
      rw [List.length_set] at hilt2
      have e_ip : (children.set i c').getD (i + 1) (.leaf [])
          = children.getD (i + 1) (.leaf []) :=
        getD_set_ne _ _ (by omega)
      rw [e_ip] at hblen
      have hrwf := h4 _ (getD_mem (BTree.leaf ([] : List (Nat × V)))
        (by omega : i + 1 < children.length))
      obtain ⟨hrsh, hrlo, hrhi⟩ := (WFtop_zero order _ _).mp hrwf
      rw [hmA] at hrlo
      rw [if_neg hb1, if_pos ⟨by rw [List.length_set]; exact hilt2,
        by rw [e_ip]; exact hblen⟩, e_ip]
      rw [List.set_set]
      simp only [WFtop, Bool.and_eq_true, decide_eq_true_eq,
        List.all_eq_true, List.length_set]
      refine ⟨⟨by omega, by omega, by omega⟩, ?_⟩
      refine all_mem_set (all_mem_set h4 ?_) ?_
      · simp only [WFtop, decide_eq_true_eq, List.length_append,
          List.length_take, hmA]
        omega
      · simp only [WFtop, decide_eq_true_eq, List.length_drop, hmA]
        omega
    · by_cases hi0 : 0 < i
      · have e_im : (children.set i c').getD (i - 1) (.leaf [])
            = children.getD (i - 1) (.leaf []) :=
          getD_set_ne _ _ (by omega)
        have hlwf := h4 _ (getD_mem (BTree.leaf ([] : List (Nat × V)))
          (by omega : i - 1 < children.length))
        obtain ⟨hlsh, hllo, hlhi⟩ := (WFtop_zero order _ _).mp hlwf
        rw [hmA] at hllo
        have hble : (entriesOf (children.getD (i - 1)
            (.leaf []))).length ≤ min_keys_for_leaf order := by
          by_contra hgt
          exact hb1 ⟨hi0, by rw [e_im]; omega⟩
        rw [if_neg hb1, if_neg hb2, if_pos hi0, e_im]
        rw [List.set_comm _ _ _ (by omega : i ≠ i - 1),
          eraseIdx_set_self]
        simp only [WFtop, Bool.and_eq_true, decide_eq_true_eq,
          List.all_eq_true,
          List.length_eraseIdx_of_lt
            (by omega : i - 1 < keys.length),
          List.length_eraseIdx_of_lt
            (by rw [List.length_set]; omega :
              i < (children.set (i - 1)
                (BTree.leaf (entriesOf (children.getD (i - 1)
                  (BTree.leaf [])) ++ entriesOf c'))).length),
          List.length_set]
        refine ⟨⟨by omega, by omega, by omega⟩, ?_⟩
        refine all_mem_eraseIdx (all_mem_set h4 ?_)
        simp only [WFtop, decide_eq_true_eq, List.length_append, hmA]
        omega
      · have hizero : i = 0 := by omega
        subst hizero
        have e_ip : (children.set 0 c').getD (0 + 1) (.leaf [])
            = children.getD (0 + 1) (.leaf []) :=
          getD_set_ne _ _ (by omega)
        have hrwf := h4 _ (getD_mem (BTree.leaf ([] : List (Nat × V)))
          (by omega : 0 + 1 < children.length))
        obtain ⟨hrsh, hrlo, hrhi⟩ := (WFtop_zero order _ _).mp hrwf
        rw [hmA] at hrlo
        have hbre : (entriesOf (children.getD (0 + 1)
            (.leaf []))).length ≤ min_keys_for_leaf order := by
          by_contra hgt
          refine hb2 ⟨?_, by rw [e_ip]; omega⟩
          rw [List.length_set]
          omega
        rw [if_neg hb1, if_neg hb2, if_neg hi0, e_ip]
        rw [List.set_set]
        simp only [WFtop, Bool.and_eq_true, decide_eq_true_eq,
          List.all_eq_true,
          List.length_eraseIdx_of_lt (by omega : 0 < keys.length),
          List.length_eraseIdx_of_lt
            (by rw [List.length_set]; omega :
              0 + 1 < (children.set 0
                (BTree.leaf (entriesOf c' ++
                  entriesOf (children.getD (0 + 1)
                    (BTree.leaf []))))).length),
          List.length_set]
        refine ⟨⟨by omega, by omega, by omega⟩, ?_⟩
        refine all_mem_eraseIdx (all_mem_set h4 ?_)
        simp only [WFtop, decide_eq_true_eq, List.length_append, hmA]
        omega

theorem underflow_internal_wf (order : Nat) (h3 : 3 ≤ order)
    (g : Nat) (keys : List Nat) (children : List (BTree V))
    (c' : BTree V) (i lo : Nat) (hlo : 1 ≤ lo)
    (h1 : lo ≤ keys.length) (h2 : keys.length ≤ order)
    (hcl : children.length = keys.length + 1)
    (hilt : i < children.length)
    (h4 : ∀ c ∈ children,
      WFtop order (g + 1) (minAt order (g + 1)) c = true)
    (hc' : WFtop order (g + 1) (min_keys_for_internal order - 1) c'
      = true)
    (hcnt : topCount c' = min_keys_for_internal order - 1) :
    WFtop order (g + 2) (lo - 1)
      (.node
        (handle_underflow_internal order keys (children.set i c') i).1
        (handle_underflow_internal order keys (children.set i c') i).2)
      = true := by
  have hmI : min_keys_for_internal order = order / 2 := rfl
  have hmA : minAt order (g + 1) = min_keys_for_internal order := rfl
  obtain ⟨hcsh, hclo, hchi, hccl, hcall⟩ :=
    (WFtop_succ order _ g c').mp hc'
  have hck : (keysOf c').length = min_keys_for_internal order - 1 := by
    rw [hcsh] at hcnt
    simpa [topCount] using hcnt
  have hgetDi : (children.set i c').getD i (.leaf []) = c' :=
    getD_set_self _ _ hilt
  simp only [handle_underflow_internal, hgetDi]
  by_cases hb1 : 0 < i ∧ min_keys_for_internal order <
      (keysOf ((children.set i c').getD (i - 1) (.leaf []))).length
  · obtain ⟨hipos, hblen⟩ := hb1
    have e_im : (children.set i c').getD (i - 1) (.leaf [])
        = children.getD (i - 1) (.leaf []) :=
      getD_set_ne _ _ (by omega)
    rw [e_im] at hblen
    have hlwf := h4 _ (getD_mem (BTree.leaf ([] : List (Nat × V)))
      (by omega : i - 1 < children.length))
    obtain ⟨hlsh, hllo, hlhi, hlcl, hlall⟩ :=
      (WFtop_succ order _ g _).mp hlwf
    rw [hmA] at hllo
    rw [if_pos ⟨hipos, by rw [e_im]; exact hblen⟩, e_im]
    rw [List.set_comm _ _ _ (by omega : i ≠ i - 1), List.set_set]
    simp only [WFtop, Bool.and_eq_true, decide_eq_true_eq,
      List.all_eq_true, List.length_set]
    refine ⟨⟨by omega, by omega, by omega⟩, ?_⟩
    refine all_mem_set (all_mem_set h4 ?_) ?_
    · simp only [WFtop, Bool.and_eq_true, decide_eq_true_eq,
        List.all_eq_true, List.length_take, hmA]
      refine ⟨⟨by omega, by omega, by omega⟩, ?_⟩
      intro c hc
      exact hlall _ (List.take_subset _ _ hc)
    · simp only [WFtop, Bool.and_eq_true, decide_eq_true_eq,
        List.all_eq_true, List.length_cons, List.length_append,
        List.length_drop, hmA]
      refine ⟨⟨by omega, by omega, by omega⟩, ?_⟩
      intro c hc
      rcases List.mem_append.mp hc with h | h
      · exact hlall _ (List.drop_subset _ _ h)
      · exact hcall _ h
  · by_cases hb2 : i < (children.set i c').length - 1 ∧
        min_keys_for_internal order <
          (keysOf ((children.set i c').getD (i + 1) (.leaf []))).length
    · obtain ⟨hilt2, hblen⟩ := hb2
      rw [List.length_set] at hilt2
      have e_ip : (children.set i c').getD (i + 1) (.leaf [])
          = children.getD (i + 1) (.leaf []) :=
        getD_set_ne _ _ (by omega)
      rw [e_ip] at hblen
      have hrwf := h4 _ (getD_mem (BTree.leaf ([] : List (Nat × V)))
        (by omega : i + 1 < children.length))
      obtain ⟨hrsh, hrlo, hrhi, hrcl, hrall⟩ :=
        (WFtop_succ order _ g _).mp hrwf
      rw [hmA] at hrlo
      rw [if_neg hb1, if_pos ⟨by rw [List.length_set]; exact hilt2,
        by rw [e_ip]; exact hblen⟩, e_ip]
      rw [List.set_set]
      simp only [WFtop, Bool.and_eq_true, decide_eq_true_eq,
        List.all_eq_true, List.length_set]
      refine ⟨⟨by omega, by omega, by omega⟩, ?_⟩
      refine all_mem_set (all_mem_set h4 ?_) ?_
      · simp only [WFtop, Bool.and_eq_true, decide_eq_true_eq,
          List.all_eq_true, List.length_append, List.length_take,
          List.length_cons, List.length_nil, hmA]
        refine ⟨⟨by omega, by omega, by omega⟩, ?_⟩
        intro c hc
        rcases List.mem_append.mp hc with h | h
        · exact hcall _ h
        · exact hrall _ (List.take_subset _ _ h)
      · simp only [WFtop, Bool.and_eq_true, decide_eq_true_eq,
          List.all_eq_true, List.length_drop, hmA]
        refine ⟨⟨by omega, by omega, by omega⟩, ?_⟩
        intro c hc
        exact hrall _ (List.drop_subset _ _ hc)
    · by_cases hi0 : 0 < i
      · have e_im : (children.set i c').getD (i - 1) (.leaf [])
            = children.getD (i - 1) (.leaf []) :=
          getD_set_ne _ _ (by omega)
        have hlwf := h4 _ (getD_mem (BTree.leaf ([] : List (Nat × V)))
          (by omega : i - 1 < children.length))
        obtain ⟨hlsh, hllo, hlhi, hlcl, hlall⟩ :=
          (WFtop_succ order _ g _).mp hlwf
        rw [hmA] at hllo
        have hble : (keysOf (children.getD (i - 1)
            (.leaf []))).length ≤ min_keys_for_internal order := by
          by_contra hgt
          exact hb1 ⟨hi0, by rw [e_im]; omega⟩
        rw [if_neg hb1, if_neg hb2, if_pos hi0, e_im]
        rw [List.set_comm _ _ _ (by omega : i ≠ i - 1),
          eraseIdx_set_self]
        simp only [WFtop, Bool.and_eq_true, decide_eq_true_eq,
          List.all_eq_true,
          List.length_eraseIdx_of_lt
            (by omega : i - 1 < keys.length),
          List.length_eraseIdx_of_lt
            (by rw [List.length_set]; omega :
              i < (children.set (i - 1)
                (BTree.node (keysOf (children.getD (i - 1)
                    (BTree.leaf [])) ++
                  keys.getD (i - 1) 0 :: keysOf c')
                  (childrenOf (children.getD (i - 1)
                    (BTree.leaf [])) ++ childrenOf c'))).length),
          List.length_set]
        refine ⟨⟨by omega, by omega, by omega⟩, ?_⟩
        refine all_mem_eraseIdx (all_mem_set h4 ?_)
        simp only [WFtop, Bool.and_eq_true, decide_eq_true_eq,
          List.all_eq_true, List.length_append, List.length_cons,
          hmA]
        refine ⟨⟨by omega, by omega, by omega⟩, ?_⟩
        intro c hc
        rcases List.mem_append.mp hc with h | h
        · exact hlall _ h
        · exact hcall _ h
      · have hizero : i = 0 := by omega
        subst hizero
        have e_ip : (children.set 0 c').getD (0 + 1) (.leaf [])
            = children.getD (0 + 1) (.leaf []) :=
          getD_set_ne _ _ (by omega)
        have hrwf := h4 _ (getD_mem (BTree.leaf ([] : List (Nat × V)))
          (by omega : 0 + 1 < children.length))
        obtain ⟨hrsh, hrlo, hrhi, hrcl, hrall⟩ :=
          (WFtop_succ order _ g _).mp hrwf
        rw [hmA] at hrlo
        have hbre : (keysOf (children.getD (0 + 1)
            (.leaf []))).length ≤ min_keys_for_internal order := by
          by_contra hgt
          refine hb2 ⟨?_, by rw [e_ip]; omega⟩
          rw [List.length_set]
          omega
        rw [if_neg hb1, if_neg hb2, if_neg hi0, e_ip]
        rw [List.set_set]
        simp only [WFtop, Bool.and_eq_true, decide_eq_true_eq,
          List.all_eq_true,
          List.length_eraseIdx_of_lt (by omega : 0 < keys.length),
          List.length_eraseIdx_of_lt
            (by rw [List.length_set]; omega :
              0 + 1 < (children.set 0
                (BTree.node (keysOf c' ++
                  keys.getD 0 0 :: keysOf (children.getD (0 + 1)
                    (BTree.leaf [])))
                  (childrenOf c' ++
                    childrenOf (children.getD (0 + 1)
                      (BTree.leaf []))))).length),
          List.length_set]
        refine ⟨⟨by omega, by omega, by omega⟩, ?_⟩
        refine all_mem_eraseIdx (all_mem_set h4 ?_)
        simp only [WFtop, Bool.and_eq_true, decide_eq_true_eq,
          List.all_eq_true, List.length_append, List.length_cons,
          hmA]
        refine ⟨⟨by omega, by omega, by omega⟩, ?_⟩
        intro c hc
        rcases List.mem_append.mp hc with h | h
        · exact hcall _ h
        · exact hrall _ h

theorem removeEntry_length (k : Nat) :
    ∀ l : List (Nat × V), l.length - 1 ≤ (removeEntry k l).1.length ∧
      (removeEntry k l).1.length ≤ l.length := by
  intro l
  induction l with
  | nil => simp [removeEntry]
  | cons e rest ih =>
      simp only [removeEntry]
      split
      · simp
      · simp only [List.length_cons]
        omega

theorem removeIn_wf (order k : Nat) (h3 : 3 ≤ order) :
    ∀ (h : Nat) (t : BTree V) (lo : Nat), 1 ≤ lo →
      WFtop order h lo t = true →
      WFtop order h (lo - 1) (removeIn order k h t).1 = true := by
  intro h
  induction h with
  | zero =>
      intro t lo hlo hwf
      cases t with
      | node keys children => simp [WFtop] at hwf
      | leaf entries =>
          simp only [WFtop, decide_eq_true_eq] at hwf
          have hlen := removeEntry_length k entries
          simp only [removeIn]
          show WFtop order 0 (lo - 1)
            (.leaf (removeEntry k entries).1) = true
          simp only [WFtop, decide_eq_true_eq]
          omega
  | succ g ih =>
      intro t lo hlo hwf
      cases t with
      | leaf entries => simp [WFtop] at hwf
      | node keys children =>
          simp only [WFtop, Bool.and_eq_true, decide_eq_true_eq,
            List.all_eq_true] at hwf
          obtain ⟨⟨h1, h2, h3c⟩, h4⟩ := hwf
          have hile := childIndex_le keys k
          have hilt : childIndex keys k < children.length := by omega
          have hminpos := minAt_pos h3 g
          have hchildwf := h4 _
            (getD_mem (BTree.leaf ([] : List (Nat × V))) hilt)
          have hc' := ih (children.getD (childIndex keys k) (.leaf []))
            (minAt order g) hminpos hchildwf
          simp only [removeIn]
          by_cases hu : topCount (removeIn order k g
              (children.getD (childIndex keys k) (.leaf []))).1 <
              minAt order g
          · have hcntlow := WFtop_count hc'
            have hcnt : topCount (removeIn order k g
                (children.getD (childIndex keys k) (.leaf []))).1
                = minAt order g - 1 := by omega
            rw [if_pos hu]
            cases g with
            | zero =>
                exact underflow_leaf_wf order h3 keys children _ _ lo
                  hlo h1 h2 h3c hilt h4 hc' hcnt
            | succ g2 =>
                exact underflow_internal_wf order h3 g2 keys children
                  _ _ lo hlo h1 h2 h3c hilt h4 hc' hcnt
          · rw [if_neg hu]
            have hfull := WFtop_adjust hc' (Nat.le_of_not_lt hu)
            show WFtop order (g + 1) (lo - 1)
              (.node keys (children.set (childIndex keys k)
                (removeIn order k g (children.getD (childIndex keys k)
                  (.leaf []))).1)) = true
            simp only [WFtop, Bool.and_eq_true, decide_eq_true_eq,
              List.all_eq_true, List.length_set]
            exact ⟨⟨by omega, h2, h3c⟩, all_mem_set h4 hfull⟩

theorem BPlusTreeMap.insert_wf (m : BPlusTreeMap V) (k : Nat) (v : V)
    (hwf : MapWF m) : MapWF (m.insert k v) := by
  obtain ⟨h3, hroot⟩ := hwf
  cases hr : m.root with
  | none =>
      simp only [BPlusTreeMap.insert, hr, MapWF]
      refine ⟨h3, ?_⟩
      simp only [WFtop, decide_eq_true_eq, List.length_cons,
        List.length_nil]
      omega
  | some r =>
      simp only [hr] at hroot
      have hres := insertIn_wf m.order k v h3 m.height r 1 hroot
      cases hres1 : (insertIn m.order k v m.height r).1 with
      | one t =>
          simp only [hres1] at hres
          simp only [BPlusTreeMap.insert, hr, hres1, MapWF]
          exact ⟨h3, hres⟩
      | split l sep rgt =>
          simp only [hres1] at hres
          simp only [BPlusTreeMap.insert, hr, hres1, MapWF]
          refine ⟨h3, ?_⟩
          rw [WFtop_succ]
          refine ⟨rfl, ?_, ?_, ?_, ?_⟩
          · simp [keysOf]
          · simp only [keysOf, List.length_cons, List.length_nil]
            omega
          · simp [keysOf, childrenOf]
          · intro c hc
            simp only [childrenOf, List.mem_cons, List.not_mem_nil,
              or_false] at hc
            rcases hc with rfl | rfl
            · exact hres.1
            · exact hres.2

theorem BPlusTreeMap.remove_wf (m : BPlusTreeMap V) (k : Nat)
    (hwf : MapWF m) : MapWF (m.remove k) := by
  obtain ⟨h3, hroot⟩ := hwf
  cases hr : m.root with
  | none =>
      simp only [BPlusTreeMap.remove, hr, MapWF]
      exact ⟨h3, trivial⟩
  | some r =>
      simp only [hr] at hroot
      have hres := removeIn_wf m.order k h3 m.height r 1 (le_refl 1)
        hroot
      cases hres1 : (removeIn m.order k m.height r).1 with
      | leaf entries =>
          rw [hres1] at hres
          cases entries with
          | nil =>
              simp only [BPlusTreeMap.remove, hr, hres1, MapWF]
              exact ⟨h3, trivial⟩
          | cons e rest =>
              simp only [BPlusTreeMap.remove, hr, hres1, MapWF]
              refine ⟨h3, ?_⟩
              exact WFtop_adjust hres (by simp [topCount])
      | node ks cs =>
          rw [hres1] at hres
          cases ks with
          | cons k0 ks2 =>
              simp only [BPlusTreeMap.remove, hr, hres1, MapWF]
              refine ⟨h3, ?_⟩
              exact WFtop_adjust hres (by simp [topCount])
          | nil =>
              cases hh : m.height with
              | zero =>
                  rw [hh] at hres
                  simp [WFtop] at hres
              | succ g =>
                  rw [hh] at hres
                  obtain ⟨hsh, hzlo, hzhi, hzcl, hzall⟩ :=
                    (WFtop_succ m.order 0 g _).mp hres
                  simp only [keysOf, childrenOf, List.length_nil] at hzcl
                  cases cs with
                  | nil => simp at hzcl
                  | cons c cs2 =>
                    cases cs2 with
                    | cons c2 cs3 => simp at hzcl
                    | nil =>
                        simp only [BPlusTreeMap.remove, hr, hres1,
                          MapWF]
                        refine ⟨h3, ?_⟩
                        have hg : m.height - 1 = g := by omega
                        rw [hg]
                        have hcwf := hzall c (by
                          simp [childrenOf])
                        exact WFtop_adjust hcwf
                          (le_trans (minAt_pos h3 g)
                            (WFtop_count hcwf))

theorem applyOps_wf :
    ∀ (ops : List (MapOp V)) (m : BPlusTreeMap V), MapWF m →
      MapWF (applyOps m ops) := by
  intro ops
  induction ops with
  | nil => intro m hm; exact hm
  | cons op rest ih =>
      intro m hm
      cases op with
      | ins k v => exact ih _ (m.insert_wf k v hm)
      | del k => exact ih _ (m.remove_wf k hm)

/-- C2 (amended): for every order at least 3 and every sequence of
insert and remove operations applied to the empty map, the tree stays
well-formed: every non-root leaf holds at least floor((order+1)/2) keys
(min_keys_for_leaf, which the source computes as (order+1)/2 in integer
division), every non-root internal node at least floor(order/2) keys
(min_keys_for_internal), every node at most order keys, and every
internal node one more child than keys. The claimed ceil((m+1)/2) leaf
bound is refuted by bptree_claim_counterexample for m = 4. -/
theorem bptree_min_occupancy (V : Type) (order : Nat) (h3 : 3 ≤ order)
    (ops : List (MapOp V)) :
    MapWF (applyOps (BPlusTreeMap.new V order) ops) :=
  applyOps_wf ops _ ⟨h3, trivial⟩

/-- Witness for C2: the order-4 tree after inserting 1..5 and removing
1 is well-formed. -/
theorem bptree_min_occupancy_witness :
    MapWF (applyOps (BPlusTreeMap.new Nat 4)
      [.ins 1 0, .ins 2 0, .ins 3 0, .ins 4 0, .ins 5 0, .del 1]) :=
  bptree_min_occupancy Nat 4 (by decide)
    [.ins 1 0, .ins 2 0, .ins 3 0, .ins 4 0, .ins 5 0, .del 1]

end MX